import Mathlib

/-!
# Options payoff analysis: a verification development

Shallow embedding of `controllers/analysisController.go` and
`models/optionsContract.go`.

The program computes with `float64`.  Two readings of its arithmetic are embedded.

* Namespace `Fp64` is the program as it runs: every value is an IEEE 754
  binary64 number (`Binary64`), additions and subtractions round to nearest,
  ties to even, may overflow to an infinity and may yield NaN, comparisons with
  NaN are false, and the JSON encoder rejects a result that is not finite.
  Every property that rounding, overflow or NaN can change is stated on it.
* The definitions outside `Fp64` read the same statements in exact arithmetic:
  a finite `float64` is the rational it denotes and nothing is rounded.  This is
  the real-valued payoff of the specification.  It is used for the control flow
  (validation, loops, indices), for values that are exact in `float64` as well,
  and for properties of the payoff as a function of a real price.

Other conventions.

* The infinities that the code creates with `math.Inf` are constructors of `F64`
  (exact reading) and of `Binary64`.
* Go strings are Lean strings, compared with `=` exactly as `==`/`!=` do.
* `time.Time` is an integer timestamp.
* A slice is a list; reading a slice at an index that is out of range makes the
  Go program panic, which the model renders as `none`.
-/

namespace OptionsAnalysis

/-! ## Data model -/

/-- OptionsContract of `models/optionsContract.go`. -/
structure OptionsContract where
  Type_ : String
  StrikePrice : ℚ
  Bid : ℚ
  Ask : ℚ
  ExpirationDate : Int
  LongShort : String
deriving DecidableEq

/-- XYValue represents a point on the profit/loss chart. -/
structure XYValue where
  X : ℚ
  Y : ℚ
deriving DecidableEq

/-- Values of a `float64` variable that may hold an infinity: the accumulators
of `getMaxProfit` and `getMaxLoss` start at `math.Inf(-1)` and `math.Inf(1)`. -/
inductive F64 where
  | negInf : F64
  | fin (q : ℚ) : F64
  | posInf : F64
deriving DecidableEq

/-- Strict order `a < b` of `float64` values. -/
def F64.lt : F64 → F64 → Bool
  | .negInf, .negInf => false
  | .negInf, _ => true
  | .fin _, .negInf => false
  | .fin a, .fin b => decide (a < b)
  | .fin _, .posInf => true
  | .posInf, _ => false

/-- AnalysisResponse encapsulates the response data for the options analysis. -/
structure AnalysisResponse where
  XYValues : List XYValue
  MaxProfit : F64
  MaxLoss : F64
  BreakEvenPoints : List ℚ
deriving DecidableEq

/-- The JSON body of a response: either `fiber.Map{"error": msg}` or the
serialised `AnalysisResponse`. -/
inductive Body where
  | error (msg : String) : Body
  | analysis (r : AnalysisResponse) : Body
deriving DecidableEq

/-- What the handler sends: a status code and a JSON body. -/
structure Response where
  status : Nat
  body : Body
deriving DecidableEq

/-- Status code `fiber.StatusBadRequest`. -/
def StatusBadRequest : Nat := 400

/-- Status code `fiber.StatusOK`. -/
def StatusOK : Nat := 200

/-! ## Per-contract payoff -/

/-- calculateCallProfitLoss computes the profit/loss for a call option at a given
price, read in exact arithmetic (`Fp64.calculateCallProfitLoss` rounds). -/
def calculateCallProfitLoss (contract : OptionsContract) (price : ℚ) : ℚ :=
  if contract.LongShort = "long" then
    max 0 (price - contract.StrikePrice) - contract.Ask
  else
    contract.Bid - max 0 (price - contract.StrikePrice)

/-- calculatePutProfitLoss computes the profit/loss for a put option at a given
price, read in exact arithmetic (`Fp64.calculatePutProfitLoss` rounds). -/
def calculatePutProfitLoss (contract : OptionsContract) (price : ℚ) : ℚ :=
  if contract.LongShort = "long" then
    max 0 (contract.StrikePrice - price) - contract.Ask
  else
    contract.Bid - max 0 (contract.StrikePrice - price)

/-- Body of the inner loop of `calculateXYValues`: `profitLoss := 0.0` followed by
the `switch contract.Type`, which has no default case. -/
def contractProfitLoss (contract : OptionsContract) (price : ℚ) : ℚ :=
  if contract.Type_ = "Call" then calculateCallProfitLoss contract price
  else if contract.Type_ = "Put" then calculatePutProfitLoss contract price
  else 0

/-- Inner loop of `calculateXYValues`: `totalProfitLoss := 0.0`, then
`totalProfitLoss += profitLoss` for each contract in slice order, read in exact
arithmetic (`Fp64.totalProfitLoss` rounds each addition). -/
def totalProfitLoss (contracts : List OptionsContract) (price : ℚ) : ℚ :=
  contracts.foldl (fun total contract => total + contractProfitLoss contract price) 0

/-! ## The price scan -/

/-- Outer loop of `calculateXYValues`, entered with the current `price` and the
slice built so far: `for ; price <= 150.0; price += 1.0 { ... append ... }`. -/
def priceLoop (contracts : List OptionsContract) (price : ℚ) (xyValues : List XYValue) :
    List XYValue :=
  if price ≤ 150 then
    priceLoop contracts (price + 1)
      (xyValues ++ [{ X := price, Y := totalProfitLoss contracts price }])
  else
    xyValues
termination_by (⌊151 - price⌋).toNat
decreasing_by
  have h1 : (151 : ℚ) - (price + 1) = (151 - price) - 1 := by ring
  have h2 : (1 : ℤ) ≤ ⌊151 - price⌋ := by
    rw [Int.le_floor]
    push_cast
    linarith
  rw [h1, Int.floor_sub_one]
  omega

/-- calculateXYValues computes the profit/loss for a range of prices. -/
def calculateXYValues (contracts : List OptionsContract) : List XYValue :=
  priceLoop contracts 50 []

/-! ## Reductions over the curve -/

/-- getMaxProfit finds the maximum profit from the list of XY values, whose y are
finite and exact here (`Fp64.getMaxProfit` also meets infinities and NaN). -/
def getMaxProfit (xyValues : List XYValue) : F64 :=
  xyValues.foldl
    (fun maxProfit xy => if F64.lt maxProfit (.fin xy.Y) then .fin xy.Y else maxProfit)
    .negInf

/-- getMaxLoss finds the maximum loss from the list of XY values, whose y are
finite and exact here (`Fp64.getMaxLoss` also meets infinities and NaN). -/
def getMaxLoss (xyValues : List XYValue) : F64 :=
  xyValues.foldl
    (fun maxLoss xy => if F64.lt (.fin xy.Y) maxLoss then .fin xy.Y else maxLoss)
    .posInf

/-- The test of `findBreakEvenPoints` on two consecutive y values. -/
def signChange (prevY currY : ℚ) : Bool :=
  (decide (prevY ≤ 0) && decide (currY ≥ 0)) || (decide (prevY ≥ 0) && decide (currY ≤ 0))

/-- Loop of `findBreakEvenPoints`, entered with the index `i` (the code starts it
at 1 and only increments it) and the slice built so far.  An index out of range
is a panic (`none`). -/
def breakEvenLoop (xyValues : List XYValue) (i : Nat) (breakEvenPoints : List ℚ) :
    Option (List ℚ) :=
  if i < xyValues.length then
    match xyValues[i - 1]?, xyValues[i]? with
    | some prev, some curr =>
      if signChange prev.Y curr.Y then
        breakEvenLoop xyValues (i + 1) (breakEvenPoints ++ [curr.X])
      else
        breakEvenLoop xyValues (i + 1) breakEvenPoints
    | _, _ => none
  else
    some breakEvenPoints
termination_by xyValues.length - i

/-- findBreakEvenPoints determines the prices where profit/loss is zero. -/
def findBreakEvenPoints (xyValues : List XYValue) : Option (List ℚ) :=
  breakEvenLoop xyValues 1 []

/-! ## The request handler -/

/-- Validation loop of `AnalyzeOptionsContracts`: the message of the first early
return, or `none` when the loop runs to its end. -/
def validateContracts : List OptionsContract → Option String
  | [] => none
  | contract :: rest =>
    if contract.Type_ ≠ "Call" ∧ contract.Type_ ≠ "Put" then
      some "Invalid option type"
    else if contract.LongShort ≠ "long" ∧ contract.LongShort ≠ "short" then
      some "Invalid position type"
    else
      validateContracts rest

/-- AnalyzeOptionsContracts handles the analysis of options contracts.  The
argument is the outcome of `c.BodyParser` (`none` when it reports an error); the
result is the response sent, or `none` if the handler panics.  In exact
arithmetic every result is finite and the JSON encoder cannot fail
(`Fp64.AnalyzeOptionsContracts` has that branch). -/
def AnalyzeOptionsContracts (parsed : Option (List OptionsContract)) : Option Response :=
  match parsed with
  | none => some { status := StatusBadRequest, body := .error "Invalid request" }
  | some contracts =>
    match validateContracts contracts with
    | some msg => some { status := StatusBadRequest, body := .error msg }
    | none =>
      let xyValues := calculateXYValues contracts
      let maxProfit := getMaxProfit xyValues
      let maxLoss := getMaxLoss xyValues
      match findBreakEvenPoints xyValues with
      | none => none
      | some breakEvenPoints =>
        some { status := StatusOK,
               body := .analysis { XYValues := xyValues, MaxProfit := maxProfit,
                                   MaxLoss := maxLoss, BreakEvenPoints := breakEvenPoints } }

/-! ## Vocabulary of the specification -/

/-- A contract passes validation: its type is exactly "Call" or "Put" and its
position exactly "long" or "short". -/
def ValidContract (c : OptionsContract) : Prop :=
  (c.Type_ = "Call" ∨ c.Type_ = "Put") ∧ (c.LongShort = "long" ∨ c.LongShort = "short")

instance (c : OptionsContract) : Decidable (ValidContract c) := by
  unfold ValidContract; infer_instance

/-- A contract list is valid when each of its contracts is. -/
def ValidContracts (cs : List OptionsContract) : Prop :=
  ∀ c ∈ cs, ValidContract c

instance (cs : List OptionsContract) : Decidable (ValidContracts cs) := by
  unfold ValidContracts; infer_instance

/-- The i-th sampled price, `50 + i`. -/
def samplePrice (i : Nat) : ℚ := 50 + (i : ℚ)

/-- The curve as the specification describes it: one point per sampled price
50, 51, ..., 150, carrying the total profit/loss at that price. -/
def curveSpec (contracts : List OptionsContract) : List XYValue :=
  (List.range 101).map
    (fun i => { X := samplePrice i, Y := totalProfitLoss contracts (samplePrice i) })

/-- The per-contract payoff as the specification tabulates it, by kind and
position. -/
def payoffSpec (c : OptionsContract) (price : ℚ) : ℚ :=
  match c.Type_, c.LongShort with
  | "Call", "long" => max 0 (price - c.StrikePrice) - c.Ask
  | "Call", "short" => c.Bid - max 0 (price - c.StrikePrice)
  | "Put", "long" => max 0 (c.StrikePrice - price) - c.Ask
  | "Put", "short" => c.Bid - max 0 (c.StrikePrice - price)
  | _, _ => 0

/-- The break-even condition in the specification's words: the payoff changes
sign or touches zero between consecutive points. -/
def CrossOrTouch (prevY currY : ℚ) : Prop :=
  (prevY ≤ 0 ∧ currY ≥ 0) ∨ (prevY ≥ 0 ∧ currY ≤ 0)

instance (a b : ℚ) : Decidable (CrossOrTouch a b) := by
  unfold CrossOrTouch; infer_instance

/-- The point of a curve at index `i` (the origin when `i` is out of range). -/
def pointAt (xy : List XYValue) (i : Nat) : XYValue :=
  xy.getD i { X := 0, Y := 0 }

/-- The break-even list as the specification describes it: in index order, the
x of every point at an index `i ≥ 1` whose y and the y before it cross or touch
zero. -/
def breakEvenSpec (xy : List XYValue) : List ℚ :=
  ((List.range xy.length).filter
      (fun i => decide (1 ≤ i ∧ CrossOrTouch (pointAt xy (i - 1)).Y (pointAt xy i).Y))).map
    (fun i => (pointAt xy i).X)

/-- The message the specification attaches to an invalid contract: the option
type is named when it is wrong, the position type otherwise. -/
def invalidMessage (c : OptionsContract) : String :=
  if c.Type_ = "Call" ∨ c.Type_ = "Put" then "Invalid position type" else "Invalid option type"

/-! ## Sample inputs, taken from `tests/analysis_test.go` -/

/-- The long call of `TestAnalysisEndpoint`, with its expiration left open. -/
def longCall100 (expiration : Int) : OptionsContract :=
  { Type_ := "Call", StrikePrice := 100, Bid := 10.05, Ask := 12.04,
    ExpirationDate := expiration, LongShort := "long" }

/-- The long put of `TestMultipleContracts`, with its expiration left open. -/
def longPut105 (expiration : Int) : OptionsContract :=
  { Type_ := "Put", StrikePrice := 105, Bid := 16, Ask := 18,
    ExpirationDate := expiration, LongShort := "long" }

/-- A short call and a short put at the same strike 100.5, each sold for 0.1. -/
def shortStraddle : List OptionsContract :=
  [ { Type_ := "Call", StrikePrice := 100.5, Bid := 0.1, Ask := 0.2,
      ExpirationDate := 0, LongShort := "short" },
    { Type_ := "Put", StrikePrice := 100.5, Bid := 0.1, Ask := 0.2,
      ExpirationDate := 0, LongShort := "short" } ]

/-- A long call with the given strike, bid, ask and expiration. -/
def longCallOf (strike bid ask : ℚ) (expiration : Int) : OptionsContract :=
  { Type_ := "Call", StrikePrice := strike, Bid := bid, Ask := ask,
    ExpirationDate := expiration, LongShort := "long" }

/-- A long put with the given strike, bid, ask and expiration. -/
def longPutOf (strike bid ask : ℚ) (expiration : Int) : OptionsContract :=
  { Type_ := "Put", StrikePrice := strike, Bid := bid, Ask := ask,
    ExpirationDate := expiration, LongShort := "long" }

/-! ## Instrumentation and relations used by the claims -/

/-- How many times the body of the outer loop of `calculateXYValues` runs when
the loop is entered at `price`: the same guard and the same increment as
`priceLoop`, counting instead of appending. -/
def priceLoopIterations (price : ℚ) : Nat :=
  if price ≤ 150 then
    priceLoopIterations (price + 1) + 1
  else
    0
termination_by (⌊151 - price⌋).toNat
decreasing_by
  have h1 : (151 : ℚ) - (price + 1) = (151 - price) - 1 := by ring
  have h2 : (1 : ℤ) ≤ ⌊151 - price⌋ := by
    rw [Int.le_floor]
    push_cast
    linarith
  rw [h1, Int.floor_sub_one]
  omega

/-- Two contracts agree on every field except, possibly, the expiration date. -/
def SameButExpiration (c d : OptionsContract) : Prop :=
  c.Type_ = d.Type_ ∧ c.StrikePrice = d.StrikePrice ∧ c.Bid = d.Bid ∧ c.Ask = d.Ask ∧
    c.LongShort = d.LongShort

/-! ## IEEE 754 binary64 arithmetic

The layer below embeds the same program over `float64` values as the Go code
computes them: every addition and subtraction is rounded to the nearest
binary64 value, ties to even, overflows to an infinity, and may produce NaN.
A finite value is the rational it denotes; the two zeros are identified, which
the code cannot tell apart (it never divides, and compares them equal). -/

/-- A `float64` value: NaN, an infinity, or a finite value given as the rational
it denotes. -/
inductive Binary64 where
  | nan : Binary64
  | negInf : Binary64
  | fin (q : ℚ) : Binary64
  | posInf : Binary64

namespace Binary64

/-- The power of two `2 ^ e` as a rational. -/
def pow2 (e : ℤ) : ℚ :=
  if 0 ≤ e then ((2 ^ e.toNat : ℕ) : ℚ) else 1 / ((2 ^ (-e).toNat : ℕ) : ℚ)

/-- Number of halvings that bring `n` below 2, with `fuel` bounding the recursion. -/
def bitLog : Nat → Nat → Nat
  | 0, _ => 0
  | fuel + 1, n => if n < 2 then 0 else bitLog fuel (n / 2) + 1

/-- Floor of the binary logarithm of a natural number (0 at 0). -/
def natLog2 (n : Nat) : Nat := bitLog n n

/-- Floor of the binary logarithm of `|q|`, for `q ≠ 0`. -/
def ilog2 (q : ℚ) : ℤ :=
  if pow2 ((natLog2 q.num.natAbs : ℤ) - (natLog2 q.den : ℤ)) ≤ |q| then
    (natLog2 q.num.natAbs : ℤ) - (natLog2 q.den : ℤ)
  else
    (natLog2 q.num.natAbs : ℤ) - (natLog2 q.den : ℤ) - 1

/-- The binary64 exponent used for `q`: that of its binade, and -1022 throughout
the subnormal range. -/
def exponent (q : ℚ) : ℤ := max (ilog2 q) (-1022)

/-- The spacing of binary64 values around `q`: 52 fraction bits below the exponent. -/
def quantum (q : ℚ) : ℚ := pow2 (exponent q - 52)

/-- Rounding of a rational to the nearest integer, ties to the even one. -/
def roundHalfEven (q : ℚ) : ℤ :=
  if q - (⌊q⌋ : ℚ) < 1 / 2 then ⌊q⌋
  else if 1 / 2 < q - (⌊q⌋ : ℚ) then ⌊q⌋ + 1
  else if ⌊q⌋ % 2 = 0 then ⌊q⌋
  else ⌊q⌋ + 1

/-- The multiple of the quantum of `q` nearest to `q`, ties to even: the binary64
rounding of `q` before the overflow test.  It is also the value that parsing a
decimal literal `q` yields. -/
def nearest (q : ℚ) : ℚ := (roundHalfEven (q / quantum q) : ℚ) * quantum q

/-- Rounding of an exact result to binary64: to nearest, ties to even; a
rounded magnitude of `2 ^ 1024` or more overflows to the infinity of its sign. -/
def roundTiesToEven (q : ℚ) : Binary64 :=
  if pow2 1024 ≤ |nearest q| then (if 0 < q then posInf else negInf) else fin (nearest q)

/-- A rational is a multiple of its own quantum. -/
def OnGrid (r : ℚ) : Prop := ∃ n : ℤ, r = (n : ℚ) * quantum r

/-- A rational is the value of a finite binary64 number. -/
def Representable (r : ℚ) : Prop := OnGrid r ∧ |r| < pow2 1024

/-- Addition `a + b` of `float64`. -/
def add : Binary64 → Binary64 → Binary64
  | nan, _ => nan
  | _, nan => nan
  | posInf, negInf => nan
  | negInf, posInf => nan
  | posInf, _ => posInf
  | _, posInf => posInf
  | negInf, _ => negInf
  | _, negInf => negInf
  | fin a, fin b => roundTiesToEven (a + b)

/-- Subtraction `a - b` of `float64`. -/
def sub : Binary64 → Binary64 → Binary64
  | nan, _ => nan
  | _, nan => nan
  | posInf, posInf => nan
  | negInf, negInf => nan
  | posInf, _ => posInf
  | _, negInf => posInf
  | negInf, _ => negInf
  | _, posInf => negInf
  | fin a, fin b => roundTiesToEven (a - b)

/-- Comparison `a < b` of `float64`: false as soon as one side is NaN. -/
def lt : Binary64 → Binary64 → Bool
  | nan, _ => false
  | _, nan => false
  | posInf, _ => false
  | _, negInf => false
  | negInf, _ => true
  | _, posInf => true
  | fin a, fin b => decide (a < b)

/-- Comparison `a <= b` of `float64`: false as soon as one side is NaN. -/
def le : Binary64 → Binary64 → Bool
  | nan, _ => false
  | _, nan => false
  | negInf, _ => true
  | _, posInf => true
  | posInf, _ => false
  | _, negInf => false
  | fin a, fin b => decide (a ≤ b)

/-- Go's `math.Max(x, y)`: positive infinity if either argument is, else NaN if
either argument is, else `x` when `x > y` and `y` otherwise. -/
def mathMax : Binary64 → Binary64 → Binary64
  | posInf, _ => posInf
  | _, posInf => posInf
  | nan, _ => nan
  | _, nan => nan
  | x, y => if lt y x then x else y

/-- The value is neither NaN nor an infinity. -/
def isFinite : Binary64 → Bool
  | fin _ => true
  | _ => false

/-- Two values are the same value, decided through the order of the rationals. -/
def same : Binary64 → Binary64 → Bool
  | nan, nan => true
  | negInf, negInf => true
  | posInf, posInf => true
  | fin a, fin b => decide (a ≤ b) && decide (b ≤ a)
  | _, _ => false

/-- A finite value of the model is a binary64 number. -/
def WellFormed : Binary64 → Prop
  | fin r => Representable r
  | _ => True

end Binary64

/-! ## The program over binary64 -/

namespace Fp64

open Binary64

/-- XYValue represents a point on the profit/loss chart.  The prices 50, 51, ...
are integers, exact in `float64`, and stay rationals. -/
structure XYValue where
  X : ℚ
  Y : Binary64

/-- AnalysisResponse encapsulates the response data for the options analysis. -/
structure AnalysisResponse where
  XYValues : List XYValue
  MaxProfit : Binary64
  MaxLoss : Binary64
  BreakEvenPoints : List ℚ

/-- What the client receives as body: `fiber.Map{"error": msg}`, the serialised
`AnalysisResponse`, or the text of the JSON encoder's error. -/
inductive Body where
  | error (msg : String) : Body
  | analysis (r : AnalysisResponse) : Body
  | encoderError : Body

/-- What the handler sends: a status code and a body. -/
structure Response where
  status : Nat
  body : Body

/-- Status code `fiber.StatusInternalServerError`. -/
def StatusInternalServerError : Nat := 500

/-- calculateCallProfitLoss computes the profit/loss for a call option at a given price. -/
def calculateCallProfitLoss (contract : OptionsContract) (price : ℚ) : Binary64 :=
  if contract.LongShort = "long" then
    sub (mathMax (fin 0) (sub (fin price) (fin contract.StrikePrice))) (fin contract.Ask)
  else
    sub (fin contract.Bid) (mathMax (fin 0) (sub (fin price) (fin contract.StrikePrice)))

/-- calculatePutProfitLoss computes the profit/loss for a put option at a given price. -/
def calculatePutProfitLoss (contract : OptionsContract) (price : ℚ) : Binary64 :=
  if contract.LongShort = "long" then
    sub (mathMax (fin 0) (sub (fin contract.StrikePrice) (fin price))) (fin contract.Ask)
  else
    sub (fin contract.Bid) (mathMax (fin 0) (sub (fin contract.StrikePrice) (fin price)))

/-- Body of the inner loop of `calculateXYValues`: `profitLoss := 0.0` followed by
the `switch contract.Type`, which has no default case. -/
def contractProfitLoss (contract : OptionsContract) (price : ℚ) : Binary64 :=
  if contract.Type_ = "Call" then calculateCallProfitLoss contract price
  else if contract.Type_ = "Put" then calculatePutProfitLoss contract price
  else fin 0

/-- Inner loop of `calculateXYValues`: `totalProfitLoss := 0.0`, then
`totalProfitLoss += profitLoss` for each contract in slice order, each addition
rounded. -/
def totalProfitLoss (contracts : List OptionsContract) (price : ℚ) : Binary64 :=
  contracts.foldl (fun total contract => add total (contractProfitLoss contract price)) (fin 0)

/-- Outer loop of `calculateXYValues`, entered with the current `price` and the
slice built so far: `for ; price <= 150.0; price += 1.0 { ... append ... }`. -/
def priceLoop (contracts : List OptionsContract) (price : ℚ) (xyValues : List XYValue) :
    List XYValue :=
  if price ≤ 150 then
    priceLoop contracts (price + 1)
      (xyValues ++ [{ X := price, Y := totalProfitLoss contracts price }])
  else
    xyValues
termination_by (⌊151 - price⌋).toNat
decreasing_by
  have h1 : (151 : ℚ) - (price + 1) = (151 - price) - 1 := by ring
  have h2 : (1 : ℤ) ≤ ⌊151 - price⌋ := by
    rw [Int.le_floor]
    push_cast
    linarith
  rw [h1, Int.floor_sub_one]
  omega

/-- calculateXYValues computes the profit/loss for a range of prices. -/
def calculateXYValues (contracts : List OptionsContract) : List XYValue :=
  priceLoop contracts 50 []

/-- getMaxProfit finds the maximum profit from the list of XY values. -/
def getMaxProfit (xyValues : List XYValue) : Binary64 :=
  xyValues.foldl (fun maxProfit xy => if lt maxProfit xy.Y then xy.Y else maxProfit) negInf

/-- getMaxLoss finds the maximum loss from the list of XY values. -/
def getMaxLoss (xyValues : List XYValue) : Binary64 :=
  xyValues.foldl (fun maxLoss xy => if lt xy.Y maxLoss then xy.Y else maxLoss) posInf

/-- The test of `findBreakEvenPoints` on two consecutive y values. -/
def signChange (prevY currY : Binary64) : Bool :=
  (le prevY (fin 0) && le (fin 0) currY) || (le (fin 0) prevY && le currY (fin 0))

/-- Loop of `findBreakEvenPoints`, entered with the index `i` (the code starts it
at 1 and only increments it) and the slice built so far.  An index out of range
is a panic (`none`). -/
def breakEvenLoop (xyValues : List XYValue) (i : Nat) (breakEvenPoints : List ℚ) :
    Option (List ℚ) :=
  if i < xyValues.length then
    match xyValues[i - 1]?, xyValues[i]? with
    | some prev, some curr =>
      if signChange prev.Y curr.Y then
        breakEvenLoop xyValues (i + 1) (breakEvenPoints ++ [curr.X])
      else
        breakEvenLoop xyValues (i + 1) breakEvenPoints
    | _, _ => none
  else
    some breakEvenPoints
termination_by xyValues.length - i

/-- findBreakEvenPoints determines the prices where profit/loss is zero. -/
def findBreakEvenPoints (xyValues : List XYValue) : Option (List ℚ) :=
  breakEvenLoop xyValues 1 []

/-- The JSON encoder accepts the response: it rejects a `float64` that is NaN or
an infinity.  The x values and the break-even prices are sampled prices, always
finite. -/
def jsonEncodable (response : AnalysisResponse) : Bool :=
  response.XYValues.all (fun xy => isFinite xy.Y) && isFinite response.MaxProfit &&
    isFinite response.MaxLoss

/-- AnalyzeOptionsContracts handles the analysis of options contracts.  The
argument is the outcome of `c.BodyParser` (`none` when it reports an error); the
result is the response sent, or `none` if the handler panics.  The handler
returns the error of `c.JSON`, on which fiber's default error handler answers
with status 500 and the error text. -/
def AnalyzeOptionsContracts (parsed : Option (List OptionsContract)) : Option Response :=
  match parsed with
  | none => some { status := StatusBadRequest, body := .error "Invalid request" }
  | some contracts =>
    match validateContracts contracts with
    | some msg => some { status := StatusBadRequest, body := .error msg }
    | none =>
      let xyValues := calculateXYValues contracts
      let maxProfit := getMaxProfit xyValues
      let maxLoss := getMaxLoss xyValues
      match findBreakEvenPoints xyValues with
      | none => none
      | some breakEvenPoints =>
        let response : AnalysisResponse :=
          { XYValues := xyValues, MaxProfit := maxProfit, MaxLoss := maxLoss,
            BreakEvenPoints := breakEvenPoints }
        if jsonEncodable response then
          some { status := StatusOK, body := .analysis response }
        else
          some { status := StatusInternalServerError, body := .encoderError }

/-- The curve as a list over the sample indices 0, 1, ..., 100. -/
def curveSpec (contracts : List OptionsContract) : List XYValue :=
  (List.range 101).map
    (fun i => { X := samplePrice i, Y := totalProfitLoss contracts (samplePrice i) })

/-- The per-contract payoff as the specification tabulates it, by kind and
position, with the subtractions and the maximum of `float64`. -/
def payoffSpec (c : OptionsContract) (price : ℚ) : Binary64 :=
  match c.Type_, c.LongShort with
  | "Call", "long" => sub (mathMax (fin 0) (sub (fin price) (fin c.StrikePrice))) (fin c.Ask)
  | "Call", "short" => sub (fin c.Bid) (mathMax (fin 0) (sub (fin price) (fin c.StrikePrice)))
  | "Put", "long" => sub (mathMax (fin 0) (sub (fin c.StrikePrice) (fin price))) (fin c.Ask)
  | "Put", "short" => sub (fin c.Bid) (mathMax (fin 0) (sub (fin c.StrikePrice) (fin price)))
  | _, _ => fin 0

/-- Every number of the analysis is finite, so that the JSON encoder accepts it. -/
def FiniteResult (contracts : List OptionsContract) : Prop :=
  (∀ xy ∈ calculateXYValues contracts, isFinite xy.Y = true) ∧
  isFinite (getMaxProfit (calculateXYValues contracts)) = true ∧
  isFinite (getMaxLoss (calculateXYValues contracts)) = true

/-- The JSON-decoded quotes of a contract are finite `float64` values. -/
def DecodedContract (c : OptionsContract) : Prop :=
  Representable c.StrikePrice ∧ Representable c.Bid ∧ Representable c.Ask

end Fp64

/-! ## Sample inputs as `float64` values

A JSON number is decoded to the binary64 value nearest to the decimal literal. -/

/-- The four contracts of `TestMixedOptionTypes`, with the quotes as decoded. -/
def mixedParsed : List OptionsContract :=
  [ { Type_ := "Call", StrikePrice := 100, Bid := Binary64.nearest 10.05,
      Ask := Binary64.nearest 12.04, ExpirationDate := 0, LongShort := "long" },
    { Type_ := "Put", StrikePrice := 105, Bid := 16, Ask := 18,
      ExpirationDate := 0, LongShort := "short" },
    { Type_ := "Call", StrikePrice := 110, Bid := Binary64.nearest 20.10,
      Ask := Binary64.nearest 22.05, ExpirationDate := 0, LongShort := "long" },
    { Type_ := "Put", StrikePrice := 95, Bid := 14, Ask := Binary64.nearest 15.50,
      ExpirationDate := 0, LongShort := "short" } ]

/-- Two short calls, each sold for the `float64` nearest to 1.7e308. -/
def hugeShortCalls : List OptionsContract :=
  [ { Type_ := "Call", StrikePrice := 100, Bid := Binary64.nearest 1.7e308, Ask := 0,
      ExpirationDate := 0, LongShort := "short" },
    { Type_ := "Call", StrikePrice := 100, Bid := Binary64.nearest 1.7e308, Ask := 0,
      ExpirationDate := 0, LongShort := "short" } ]

/-- A long and a short call whose strike and premium are the `float64` nearest to
-1.7e308: the first pays positive infinity, the second negative infinity. -/
def oppositeInfinities : List OptionsContract :=
  [ { Type_ := "Call", StrikePrice := Binary64.nearest (-1.7e308), Bid := 0,
      Ask := Binary64.nearest (-1.7e308), ExpirationDate := 0, LongShort := "long" },
    { Type_ := "Call", StrikePrice := Binary64.nearest (-1.7e308),
      Bid := Binary64.nearest (-1.7e308), Ask := 0, ExpirationDate := 0,
      LongShort := "short" } ]

/-- The long call of `TestAnalysisEndpoint`, with the quotes as decoded. -/
def longCall100Parsed : OptionsContract :=
  { Type_ := "Call", StrikePrice := 100, Bid := Binary64.nearest 10.05,
    Ask := Binary64.nearest 12.04, ExpirationDate := 0, LongShort := "long" }

/-! ## Lemmas on the price scan -/

theorem samplePrice_succ (k : Nat) : samplePrice k + 1 = samplePrice (k + 1) := by
  unfold samplePrice
  push_cast
  ring

theorem samplePrice_le_iff (k : Nat) : samplePrice k ≤ 150 ↔ k ≤ 100 := by
  unfold samplePrice
  constructor
  · intro h
    have h2 : (k : ℚ) ≤ 100 := by linarith
    exact_mod_cast h2
  · intro h
    have h2 : (k : ℚ) ≤ 100 := by exact_mod_cast h
    linarith

/-- Running the scan from the k-th sampled price appends the remaining points. -/
theorem priceLoop_from (contracts : List OptionsContract) (n : Nat) :
    ∀ (k : Nat) (acc : List XYValue), k + n = 101 →
      priceLoop contracts (samplePrice k) acc =
        acc ++ (List.range' k n).map
          (fun i => { X := samplePrice i, Y := totalProfitLoss contracts (samplePrice i) }) := by
  induction n with
  | zero =>
    intro k acc hk
    have hgt : ¬ samplePrice k ≤ 150 := by
      rw [samplePrice_le_iff]; omega
    rw [priceLoop, if_neg hgt]
    simp
  | succ n ih =>
    intro k acc hk
    have hle : samplePrice k ≤ 150 := by
      rw [samplePrice_le_iff]; omega
    rw [priceLoop, if_pos hle, samplePrice_succ, ih (k + 1) _ (by omega)]
    simp [List.range'_succ]

theorem calculateXYValues_eq_curveSpec (contracts : List OptionsContract) :
    calculateXYValues contracts = curveSpec contracts := by
  have h := priceLoop_from contracts 101 0 [] (by norm_num)
  have h50 : samplePrice 0 = 50 := by simp [samplePrice]
  rw [h50] at h
  unfold calculateXYValues curveSpec
  rw [h, List.range_eq_range']
  simp

theorem curveSpec_length (contracts : List OptionsContract) :
    (curveSpec contracts).length = 101 := by
  simp [curveSpec]

theorem curveSpec_getElem? (contracts : List OptionsContract) (i : Nat) (hi : i < 101) :
    (curveSpec contracts)[i]? =
      some { X := samplePrice i, Y := totalProfitLoss contracts (samplePrice i) } := by
  simp [curveSpec, List.getElem?_map, List.getElem?_range hi]

/-- The left fold of the inner loop is the sum of the per-contract values. -/
theorem foldl_profitLoss (price : ℚ) (contracts : List OptionsContract) :
    ∀ start : ℚ,
      contracts.foldl (fun total contract => total + contractProfitLoss contract price) start =
        start + (contracts.map (fun c => contractProfitLoss c price)).sum := by
  induction contracts with
  | nil => intro start; simp
  | cons c cs ih =>
    intro start
    rw [List.foldl_cons, ih]
    simp [add_assoc]

theorem totalProfitLoss_eq_sum (contracts : List OptionsContract) (price : ℚ) :
    totalProfitLoss contracts price =
      (contracts.map (fun c => contractProfitLoss c price)).sum := by
  unfold totalProfitLoss
  rw [foldl_profitLoss]
  simp

/-! ## Lemmas on the reductions -/

theorem foldl_max_fin (xs : List XYValue) :
    ∀ a : ℚ, ∃ m : ℚ,
      xs.foldl (fun maxProfit xy =>
          if F64.lt maxProfit (.fin xy.Y) then .fin xy.Y else maxProfit) (.fin a) = .fin m ∧
        a ≤ m ∧ (∀ p ∈ xs, p.Y ≤ m) ∧ (m = a ∨ ∃ p ∈ xs, p.Y = m) := by
  induction xs with
  | nil => intro a; exact ⟨a, by simp⟩
  | cons x xs ih =>
    intro a
    rw [List.foldl_cons]
    by_cases h : a < x.Y
    · obtain ⟨m, hm, hle, hall, hex⟩ := ih x.Y
      refine ⟨m, ?_, ?_, ?_, ?_⟩
      · simpa [F64.lt, h] using hm
      · linarith
      · intro p hp
        rcases List.mem_cons.mp hp with rfl | hp
        · exact hle
        · exact hall p hp
      · right
        rcases hex with rfl | ⟨p, hp, rfl⟩
        · exact ⟨x, List.mem_cons_self _ _, rfl⟩
        · exact ⟨p, List.mem_cons_of_mem _ hp, rfl⟩
    · obtain ⟨m, hm, hle, hall, hex⟩ := ih a
      refine ⟨m, ?_, hle, ?_, ?_⟩
      · simpa [F64.lt, h] using hm
      · intro p hp
        rcases List.mem_cons.mp hp with rfl | hp
        · linarith
        · exact hall p hp
      · rcases hex with rfl | ⟨p, hp, rfl⟩
        · left; rfl
        · right; exact ⟨p, List.mem_cons_of_mem _ hp, rfl⟩

theorem foldl_min_fin (xs : List XYValue) :
    ∀ a : ℚ, ∃ m : ℚ,
      xs.foldl (fun maxLoss xy =>
          if F64.lt (.fin xy.Y) maxLoss then .fin xy.Y else maxLoss) (.fin a) = .fin m ∧
        m ≤ a ∧ (∀ p ∈ xs, m ≤ p.Y) ∧ (m = a ∨ ∃ p ∈ xs, p.Y = m) := by
  induction xs with
  | nil => intro a; exact ⟨a, by simp⟩
  | cons x xs ih =>
    intro a
    rw [List.foldl_cons]
    by_cases h : x.Y < a
    · obtain ⟨m, hm, hle, hall, hex⟩ := ih x.Y
      refine ⟨m, ?_, ?_, ?_, ?_⟩
      · simpa [F64.lt, h] using hm
      · linarith
      · intro p hp
        rcases List.mem_cons.mp hp with rfl | hp
        · exact hle
        · exact hall p hp
      · right
        rcases hex with rfl | ⟨p, hp, rfl⟩
        · exact ⟨x, List.mem_cons_self _ _, rfl⟩
        · exact ⟨p, List.mem_cons_of_mem _ hp, rfl⟩
    · obtain ⟨m, hm, hle, hall, hex⟩ := ih a
      refine ⟨m, ?_, hle, ?_, ?_⟩
      · simpa [F64.lt, h] using hm
      · intro p hp
        rcases List.mem_cons.mp hp with rfl | hp
        · linarith
        · exact hall p hp
      · rcases hex with rfl | ⟨p, hp, rfl⟩
        · left; rfl
        · right; exact ⟨p, List.mem_cons_of_mem _ hp, rfl⟩

/-- On a curve with at least one point the maximum is attained and dominates. -/
theorem getMaxProfit_attained (xy : List XYValue) (hne : xy ≠ []) :
    ∃ p ∈ xy, getMaxProfit xy = .fin p.Y ∧ ∀ q ∈ xy, q.Y ≤ p.Y := by
  cases xy with
  | nil => exact absurd rfl hne
  | cons x xs =>
    obtain ⟨m, hm, hle, hall, hex⟩ := foldl_max_fin xs x.Y
    have hfold : getMaxProfit (x :: xs) = .fin m := by
      unfold getMaxProfit
      rw [List.foldl_cons]
      simpa [F64.lt] using hm
    have hdom : ∀ q ∈ x :: xs, q.Y ≤ m := by
      intro q hq
      rcases List.mem_cons.mp hq with rfl | hq
      · exact hle
      · exact hall q hq
    rcases hex with rfl | ⟨p, hp, rfl⟩
    · exact ⟨x, List.mem_cons_self _ _, hfold, hdom⟩
    · exact ⟨p, List.mem_cons_of_mem _ hp, hfold, hdom⟩

/-- On a curve with at least one point the minimum is attained and is a lower bound. -/
theorem getMaxLoss_attained (xy : List XYValue) (hne : xy ≠ []) :
    ∃ p ∈ xy, getMaxLoss xy = .fin p.Y ∧ ∀ q ∈ xy, p.Y ≤ q.Y := by
  cases xy with
  | nil => exact absurd rfl hne
  | cons x xs =>
    obtain ⟨m, hm, hle, hall, hex⟩ := foldl_min_fin xs x.Y
    have hfold : getMaxLoss (x :: xs) = .fin m := by
      unfold getMaxLoss
      rw [List.foldl_cons]
      simpa [F64.lt] using hm
    have hdom : ∀ q ∈ x :: xs, m ≤ q.Y := by
      intro q hq
      rcases List.mem_cons.mp hq with rfl | hq
      · exact hle
      · exact hall q hq
    rcases hex with rfl | ⟨p, hp, rfl⟩
    · exact ⟨x, List.mem_cons_self _ _, hfold, hdom⟩
    · exact ⟨p, List.mem_cons_of_mem _ hp, hfold, hdom⟩

theorem calculateXYValues_ne_nil (contracts : List OptionsContract) :
    calculateXYValues contracts ≠ [] := by
  intro h
  have hlen : (calculateXYValues contracts).length = 101 := by
    rw [calculateXYValues_eq_curveSpec, curveSpec_length]
  rw [h] at hlen
  simp at hlen

/-! ## Lemmas on break-even detection -/

theorem signChange_iff (a b : ℚ) : signChange a b = true ↔ CrossOrTouch a b := by
  simp [signChange, CrossOrTouch]

theorem pointAt_of_lt (xy : List XYValue) (i : Nat) (h : i < xy.length) :
    xy[i]? = some (pointAt xy i) := by
  simp [pointAt, List.getElem?_eq_getElem h]

/-- Running the detection loop from index `i ≥ 1` appends the qualifying prices
of the remaining indices; the loop never reads out of range. -/
theorem breakEvenLoop_from (xy : List XYValue) (n : Nat) :
    ∀ (i : Nat) (acc : List ℚ), 1 ≤ i → xy.length - i = n →
      breakEvenLoop xy i acc =
        some (acc ++ ((List.range' i n).filter
          (fun j => decide (1 ≤ j ∧ CrossOrTouch (pointAt xy (j - 1)).Y (pointAt xy j).Y))).map
          (fun j => (pointAt xy j).X)) := by
  induction n with
  | zero =>
    intro i acc _ hn
    have hge : ¬ i < xy.length := by omega
    rw [breakEvenLoop, if_neg hge]
    simp
  | succ n ih =>
    intro i acc hi hn
    have hlt : i < xy.length := by omega
    have hprev : xy[i - 1]? = some (pointAt xy (i - 1)) := pointAt_of_lt xy (i - 1) (by omega)
    have hcurr : xy[i]? = some (pointAt xy i) := pointAt_of_lt xy i hlt
    rw [breakEvenLoop, if_pos hlt, hprev, hcurr]
    simp only []
    by_cases hc : CrossOrTouch (pointAt xy (i - 1)).Y (pointAt xy i).Y
    · have hs : signChange (pointAt xy (i - 1)).Y (pointAt xy i).Y = true :=
        (signChange_iff _ _).mpr hc
      rw [if_pos hs, ih (i + 1) _ (by omega) (by omega), List.range'_succ]
      simp [hi, hc]
    · have hs : ¬ signChange (pointAt xy (i - 1)).Y (pointAt xy i).Y = true :=
        fun h => hc ((signChange_iff _ _).mp h)
      rw [if_neg hs, ih (i + 1) _ (by omega) (by omega), List.range'_succ]
      simp [hc]

theorem findBreakEvenPoints_eq_spec (xy : List XYValue) :
    findBreakEvenPoints xy = some (breakEvenSpec xy) := by
  unfold findBreakEvenPoints breakEvenSpec
  rw [breakEvenLoop_from xy (xy.length - 1) 1 [] (le_refl 1) rfl]
  cases hlen : xy.length with
  | zero => simp
  | succ m =>
    rw [List.range_eq_range', List.range'_succ]
    simp

theorem mem_breakEvenSpec (xy : List XYValue) (x : ℚ) (hx : x ∈ breakEvenSpec xy) :
    ∃ i : Nat, 1 ≤ i ∧ i < xy.length ∧ x = (pointAt xy i).X ∧
      CrossOrTouch (pointAt xy (i - 1)).Y (pointAt xy i).Y := by
  unfold breakEvenSpec at hx
  rw [List.mem_map] at hx
  obtain ⟨i, hi, rfl⟩ := hx
  rw [List.mem_filter, List.mem_range, decide_eq_true_eq] at hi
  exact ⟨i, hi.2.1, hi.1, rfl, hi.2.2⟩

/-- No pair of values of one strict sign crosses or touches zero. -/
theorem breakEvenSpec_of_one_sign (xy : List XYValue)
    (h : (∀ p ∈ xy, 0 < p.Y) ∨ (∀ p ∈ xy, p.Y < 0)) : breakEvenSpec xy = [] := by
  rw [List.eq_nil_iff_forall_not_mem]
  intro x hx
  obtain ⟨i, hi1, hilt, _, hc⟩ := mem_breakEvenSpec xy x hx
  have hprev : pointAt xy (i - 1) ∈ xy := by
    have := pointAt_of_lt xy (i - 1) (by omega)
    exact List.getElem?_mem this
  have hcurr : pointAt xy i ∈ xy := by
    have := pointAt_of_lt xy i hilt
    exact List.getElem?_mem this
  unfold CrossOrTouch at hc
  rcases h with h | h
  · have h1 := h _ hprev
    have h2 := h _ hcurr
    rcases hc with ⟨ha, _⟩ | ⟨_, hb⟩ <;> linarith
  · have h1 := h _ hprev
    have h2 := h _ hcurr
    rcases hc with ⟨_, hb⟩ | ⟨ha, _⟩ <;> linarith

theorem pointAt_curveSpec (contracts : List OptionsContract) (i : Nat) (hi : i < 101) :
    pointAt (curveSpec contracts) i =
      { X := samplePrice i, Y := totalProfitLoss contracts (samplePrice i) } := by
  have h1 := pointAt_of_lt (curveSpec contracts) i (by rw [curveSpec_length]; exact hi)
  rw [curveSpec_getElem? contracts i hi] at h1
  exact (Option.some.inj h1).symm

/-! ## Lemmas on validation and the handler -/

theorem validateContracts_eq_none_iff (contracts : List OptionsContract) :
    validateContracts contracts = none ↔ ValidContracts contracts := by
  induction contracts with
  | nil => simp [validateContracts, ValidContracts]
  | cons c cs ih =>
    unfold validateContracts
    by_cases ht : c.Type_ ≠ "Call" ∧ c.Type_ ≠ "Put"
    · rw [if_pos ht]
      simp only [ValidContracts, List.mem_cons, forall_eq_or_imp, ValidContract]
      constructor
      · intro h; cases h
      · rintro ⟨⟨h | h, _⟩, _⟩
        · exact absurd h ht.1
        · exact absurd h ht.2
    · rw [if_neg ht]
      by_cases hl : c.LongShort ≠ "long" ∧ c.LongShort ≠ "short"
      · rw [if_pos hl]
        simp only [ValidContracts, List.mem_cons, forall_eq_or_imp, ValidContract]
        constructor
        · intro h; cases h
        · rintro ⟨⟨_, h | h⟩, _⟩
          · exact absurd h hl.1
          · exact absurd h hl.2
      · rw [if_neg hl, ih]
        have hvc : ValidContract c := by
          unfold ValidContract
          constructor
          · by_contra hcon
            exact ht ⟨fun h => hcon (Or.inl h), fun h => hcon (Or.inr h)⟩
          · by_contra hcon
            exact hl ⟨fun h => hcon (Or.inl h), fun h => hcon (Or.inr h)⟩
        simp only [ValidContracts, List.mem_cons, forall_eq_or_imp]
        exact ⟨fun h => ⟨hvc, h⟩, fun h => h.2⟩

/-- Validation stops at the first invalid contract and reports on it alone. -/
theorem validateContracts_first_invalid (pre : List OptionsContract) (c : OptionsContract)
    (rest : List OptionsContract) (hpre : ValidContracts pre) (hc : ¬ ValidContract c) :
    validateContracts (pre ++ c :: rest) = some (invalidMessage c) := by
  induction pre with
  | nil =>
    rw [List.nil_append]
    unfold validateContracts invalidMessage
    by_cases ht : c.Type_ = "Call" ∨ c.Type_ = "Put"
    · have ht2 : ¬ (c.Type_ ≠ "Call" ∧ c.Type_ ≠ "Put") := by
        rintro ⟨h1, h2⟩
        rcases ht with h | h
        · exact h1 h
        · exact h2 h
      have hl : c.LongShort ≠ "long" ∧ c.LongShort ≠ "short" :=
        ⟨fun h => hc ⟨ht, Or.inl h⟩, fun h => hc ⟨ht, Or.inr h⟩⟩
      rw [if_neg ht2, if_pos hl, if_pos ht]
    · have ht2 : c.Type_ ≠ "Call" ∧ c.Type_ ≠ "Put" :=
        ⟨fun h => ht (Or.inl h), fun h => ht (Or.inr h)⟩
      rw [if_pos ht2, if_neg ht]
  | cons d ds ih =>
    have hd : ValidContract d := hpre d (List.mem_cons_self _ _)
    have hds : ValidContracts ds := fun e he => hpre e (List.mem_cons_of_mem _ he)
    rw [List.cons_append]
    unfold validateContracts
    have ht2 : ¬ (d.Type_ ≠ "Call" ∧ d.Type_ ≠ "Put") := by
      rintro ⟨h1, h2⟩
      rcases hd.1 with h | h
      · exact h1 h
      · exact h2 h
    have hl2 : ¬ (d.LongShort ≠ "long" ∧ d.LongShort ≠ "short") := by
      rintro ⟨h1, h2⟩
      rcases hd.2 with h | h
      · exact h1 h
      · exact h2 h
    rw [if_neg ht2, if_neg hl2]
    exact ih hds

/-- An invalid list splits at its first invalid contract. -/
theorem exists_first_invalid (contracts : List OptionsContract)
    (h : ¬ ValidContracts contracts) :
    ∃ pre c rest, contracts = pre ++ c :: rest ∧ ValidContracts pre ∧ ¬ ValidContract c := by
  induction contracts with
  | nil => exact absurd (fun c hc => absurd hc (List.not_mem_nil c)) h
  | cons d ds ih =>
    by_cases hd : ValidContract d
    · have hds : ¬ ValidContracts ds := by
        intro hv
        apply h
        intro e he
        rcases List.mem_cons.mp he with rfl | he
        · exact hd
        · exact hv e he
      obtain ⟨pre, c, rest, heq, hpre, hc⟩ := ih hds
      refine ⟨d :: pre, c, rest, by rw [heq, List.cons_append], ?_, hc⟩
      intro e he
      rcases List.mem_cons.mp he with rfl | he
      · exact hd
      · exact hpre e he
    · exact ⟨[], d, ds, rfl, fun e he => absurd he (List.not_mem_nil e), hd⟩

theorem analyze_of_first_invalid (pre : List OptionsContract) (c : OptionsContract)
    (rest : List OptionsContract) (hpre : ValidContracts pre) (hc : ¬ ValidContract c) :
    AnalyzeOptionsContracts (some (pre ++ c :: rest)) =
      some { status := 400, body := .error (invalidMessage c) } := by
  have hv := validateContracts_first_invalid pre c rest hpre hc
  simp only [AnalyzeOptionsContracts, hv, StatusBadRequest]

/-! ## Evaluation on the sample inputs -/

/-- Two contract lists with the same total at every price have the same curve. -/
theorem calculateXYValues_congr (cs ds : List OptionsContract)
    (h : ∀ price, totalProfitLoss cs price = totalProfitLoss ds price) :
    calculateXYValues cs = calculateXYValues ds := by
  rw [calculateXYValues_eq_curveSpec, calculateXYValues_eq_curveSpec]
  unfold curveSpec
  apply List.map_congr_left
  intro i _
  rw [h]

theorem calculateXYValues_longCall100 (expiration : Int) :
    calculateXYValues [longCall100 expiration] = curveSpec [longCall100 0] := by
  rw [← calculateXYValues_eq_curveSpec]
  exact calculateXYValues_congr _ _ (fun _ => rfl)

theorem calculateXYValues_longPut105 (expiration : Int) :
    calculateXYValues [longPut105 expiration] = curveSpec [longPut105 0] := by
  rw [← calculateXYValues_eq_curveSpec]
  exact calculateXYValues_congr _ _ (fun _ => rfl)

set_option maxRecDepth 100000 in
theorem curveSpec_longCall100_values :
    (curveSpec [longCall100 0])[50]? = some { X := 100, Y := -12.04 } ∧
    (curveSpec [longCall100 0])[100]? = some { X := 150, Y := 37.96 } ∧
    getMaxLoss (curveSpec [longCall100 0]) = .fin (-12.04) ∧
    getMaxProfit (curveSpec [longCall100 0]) = .fin 37.96 := by
  with_unfolding_all decide

set_option maxRecDepth 100000 in
theorem breakEvenSpec_longCall100 : breakEvenSpec (curveSpec [longCall100 0]) = [113] := by
  with_unfolding_all decide

set_option maxRecDepth 100000 in
theorem curveSpec_longPut105_values :
    (curveSpec [longPut105 0])[0]? = some { X := 50, Y := 37 } ∧
    (curveSpec [longPut105 0])[100]? = some { X := 150, Y := -18 } := by
  with_unfolding_all decide

theorem totalProfitLoss_nil (price : ℚ) : totalProfitLoss [] price = 0 := rfl

theorem curveSpec_nil_y (p : XYValue) (hp : p ∈ curveSpec []) : p.Y = 0 := by
  unfold curveSpec at hp
  rw [List.mem_map] at hp
  obtain ⟨i, _, rfl⟩ := hp
  rfl

set_option maxRecDepth 100000 in
theorem breakEvenSpec_curveSpec_nil :
    breakEvenSpec (curveSpec []) = (List.range 100).map (fun (i : Nat) => 51 + (i : ℚ)) := by
  with_unfolding_all decide

/-! ## Lemmas on totality -/

theorem priceLoopIterations_from (n : Nat) :
    ∀ k : Nat, k + n = 101 → priceLoopIterations (samplePrice k) = n := by
  induction n with
  | zero =>
    intro k hk
    have hgt : ¬ samplePrice k ≤ 150 := by
      rw [samplePrice_le_iff]; omega
    rw [priceLoopIterations, if_neg hgt]
  | succ n ih =>
    intro k hk
    have hle : samplePrice k ≤ 150 := by
      rw [samplePrice_le_iff]; omega
    rw [priceLoopIterations, if_pos hle, samplePrice_succ, ih (k + 1) (by omega)]

theorem priceLoopIterations_50 : priceLoopIterations 50 = 101 := by
  have h := priceLoopIterations_from 101 0 (by norm_num)
  have h50 : samplePrice 0 = 50 := by simp [samplePrice]
  rw [h50] at h
  exact h

theorem calculateXYValues_length (contracts : List OptionsContract) :
    (calculateXYValues contracts).length = 101 := by
  rw [calculateXYValues_eq_curveSpec, curveSpec_length]

/-! ## Lemmas on the expiration date -/

theorem contractProfitLoss_sameButExpiration (c d : OptionsContract)
    (h : SameButExpiration c d) (price : ℚ) :
    contractProfitLoss c price = contractProfitLoss d price := by
  obtain ⟨ht, hs, hb, ha, hl⟩ := h
  simp only [contractProfitLoss, calculateCallProfitLoss, calculatePutProfitLoss,
    ht, hs, hb, ha, hl]

theorem totalProfitLoss_sameButExpiration (cs ds : List OptionsContract)
    (h : List.Forall₂ SameButExpiration cs ds) (price : ℚ) :
    totalProfitLoss cs price = totalProfitLoss ds price := by
  rw [totalProfitLoss_eq_sum, totalProfitLoss_eq_sum]
  induction h with
  | nil => rfl
  | cons hcd _ ih =>
    rw [List.map_cons, List.map_cons, List.sum_cons, List.sum_cons, ih,
      contractProfitLoss_sameButExpiration _ _ hcd]

theorem validateContracts_sameButExpiration (cs ds : List OptionsContract)
    (h : List.Forall₂ SameButExpiration cs ds) :
    validateContracts cs = validateContracts ds := by
  induction h with
  | nil => rfl
  | cons hcd _ ih =>
    obtain ⟨ht, _, _, _, hl⟩ := hcd
    simp only [validateContracts, ht, hl, ih]

/-! ## Lemmas on missed and doubled break-even prices -/

theorem totalProfitLoss_shortStraddle (price : ℚ) :
    totalProfitLoss shortStraddle price = 0.2 - |price - 100.5| := by
  have hsum : totalProfitLoss shortStraddle price =
      (0.1 - max 0 (price - 100.5)) + (0.1 - max 0 (100.5 - price)) := by
    simp [totalProfitLoss, shortStraddle, contractProfitLoss, calculateCallProfitLoss,
      calculatePutProfitLoss]
  rw [hsum]
  rcases le_total price 100.5 with h | h
  · rw [max_eq_left (by linarith), max_eq_right (by linarith), abs_of_nonpos (by linarith)]
    ring
  · rw [max_eq_right (by linarith), max_eq_left (by linarith), abs_of_nonneg (by linarith)]
    ring

set_option maxRecDepth 100000 in
theorem curveSpec_shortStraddle_negative : ∀ p ∈ curveSpec shortStraddle, p.Y < 0 := by
  with_unfolding_all decide

theorem not_sampled_of_tenths (x : ℚ) (n : Nat) (hx : 10 * x = (n : ℚ)) (hn : n % 10 ≠ 0)
    (i : Nat) : x ≠ 50 + (i : ℚ) := by
  intro h
  have h2 : ((n : ℕ) : ℚ) = ((500 + 10 * i : ℕ) : ℚ) := by
    push_cast
    rw [← hx, h]
    ring
  have h3 : n = 500 + 10 * i := by exact_mod_cast h2
  omega

theorem pointAt_calculateXYValues (contracts : List OptionsContract) (i : Nat) (hi : i ≤ 100) :
    pointAt (calculateXYValues contracts) i =
      { X := 50 + (i : ℚ), Y := totalProfitLoss contracts (50 + (i : ℚ)) } := by
  rw [calculateXYValues_eq_curveSpec, pointAt_curveSpec contracts i (by omega)]
  rfl

/-- Every point of the curve is the total at one of the sampled prices. -/
theorem mem_calculateXYValues (contracts : List OptionsContract) (p : XYValue)
    (hp : p ∈ calculateXYValues contracts) :
    ∃ i : Nat, i ≤ 100 ∧
      p = { X := samplePrice i, Y := totalProfitLoss contracts (samplePrice i) } := by
  rw [calculateXYValues_eq_curveSpec] at hp
  unfold curveSpec at hp
  rw [List.mem_map] at hp
  obtain ⟨i, hi, rfl⟩ := hp
  rw [List.mem_range] at hi
  exact ⟨i, by omega, rfl⟩

theorem pointAt_mem_calculateXYValues (contracts : List OptionsContract) (i : Nat)
    (hi : i ≤ 100) : pointAt (calculateXYValues contracts) i ∈ calculateXYValues contracts :=
  List.getElem?_mem
    (pointAt_of_lt _ i (by rw [calculateXYValues_length]; omega))

/-! ## Lemmas on monotone curves -/

theorem getMaxProfit_eq_of_greatest (xy : List XYValue) (q : XYValue) (hq : q ∈ xy)
    (hub : ∀ r ∈ xy, r.Y ≤ q.Y) : getMaxProfit xy = .fin q.Y := by
  obtain ⟨p, hp, hmax, hall⟩ := getMaxProfit_attained xy (List.ne_nil_of_mem hq)
  rw [hmax, le_antisymm (hub p hp) (hall q hq)]

theorem getMaxLoss_eq_of_least (xy : List XYValue) (q : XYValue) (hq : q ∈ xy)
    (hlb : ∀ r ∈ xy, q.Y ≤ r.Y) : getMaxLoss xy = .fin q.Y := by
  obtain ⟨p, hp, hmin, hall⟩ := getMaxLoss_attained xy (List.ne_nil_of_mem hq)
  rw [hmin, le_antisymm (hall q hq) (hlb p hp)]

theorem samplePrice_le_samplePrice (i j : Nat) (h : i ≤ j) : samplePrice i ≤ samplePrice j := by
  unfold samplePrice
  have : (i : ℚ) ≤ j := by exact_mod_cast h
  linarith

/-- A relation between the totals at any two sampled prices in ascending order
holds between any two points of the curve in list order. -/
theorem calculateXYValues_pairwise (contracts : List OptionsContract) (R : ℚ → ℚ → Prop)
    (h : ∀ i j : Nat, i < j →
      R (totalProfitLoss contracts (samplePrice i)) (totalProfitLoss contracts (samplePrice j))) :
    List.Pairwise (fun a b => R a.Y b.Y) (calculateXYValues contracts) := by
  rw [calculateXYValues_eq_curveSpec]
  unfold curveSpec
  rw [List.pairwise_map]
  exact List.Pairwise.imp (fun {i j} hij => h i j hij) (List.pairwise_lt_range 101)

theorem totalProfitLoss_longCallOf (strike bid ask : ℚ) (expiration : Int) (price : ℚ) :
    totalProfitLoss [longCallOf strike bid ask expiration] price =
      max 0 (price - strike) - ask := by
  simp [totalProfitLoss, longCallOf, contractProfitLoss, calculateCallProfitLoss]

theorem totalProfitLoss_longPutOf (strike bid ask : ℚ) (expiration : Int) (price : ℚ) :
    totalProfitLoss [longPutOf strike bid ask expiration] price =
      max 0 (strike - price) - ask := by
  simp [totalProfitLoss, longPutOf, contractProfitLoss, calculatePutProfitLoss]

theorem totalProfitLoss_longCallOf_mono (strike bid ask : ℚ) (expiration : Int) (p q : ℚ)
    (h : p ≤ q) :
    totalProfitLoss [longCallOf strike bid ask expiration] p ≤
      totalProfitLoss [longCallOf strike bid ask expiration] q := by
  rw [totalProfitLoss_longCallOf, totalProfitLoss_longCallOf]
  have : max 0 (p - strike) ≤ max 0 (q - strike) := max_le_max (le_refl 0) (by linarith)
  linarith

theorem totalProfitLoss_longPutOf_anti (strike bid ask : ℚ) (expiration : Int) (p q : ℚ)
    (h : p ≤ q) :
    totalProfitLoss [longPutOf strike bid ask expiration] q ≤
      totalProfitLoss [longPutOf strike bid ask expiration] p := by
  rw [totalProfitLoss_longPutOf, totalProfitLoss_longPutOf]
  have : max 0 (strike - q) ≤ max 0 (strike - p) := max_le_max (le_refl 0) (by linarith)
  linarith

theorem point_150_mem (contracts : List OptionsContract) :
    ({ X := 150, Y := totalProfitLoss contracts 150 } : XYValue) ∈
      calculateXYValues contracts := by
  have h := pointAt_mem_calculateXYValues contracts 100 (le_refl 100)
  rw [pointAt_calculateXYValues contracts 100 (le_refl 100)] at h
  have h150 : (50 : ℚ) + ((100 : ℕ) : ℚ) = 150 := by norm_num
  rw [h150] at h
  exact h

theorem point_50_mem (contracts : List OptionsContract) :
    ({ X := 50, Y := totalProfitLoss contracts 50 } : XYValue) ∈
      calculateXYValues contracts := by
  have h := pointAt_mem_calculateXYValues contracts 0 (Nat.zero_le 100)
  rw [pointAt_calculateXYValues contracts 0 (Nat.zero_le 100)] at h
  have h50 : (50 : ℚ) + ((0 : ℕ) : ℚ) = 50 := by norm_num
  rw [h50] at h
  exact h

theorem samplePrice_bounds (i : Nat) (hi : i ≤ 100) :
    50 ≤ samplePrice i ∧ samplePrice i ≤ 150 := by
  unfold samplePrice
  have h0 : (0 : ℚ) ≤ (i : ℚ) := Nat.cast_nonneg i
  have h1 : (i : ℚ) ≤ 100 := by exact_mod_cast hi
  constructor <;> linarith

/-- When the total never decreases with the price, the maximum is the total at
150 and the minimum the total at 50. -/
theorem extremes_of_nondecreasing (contracts : List OptionsContract)
    (hmono : ∀ p q : ℚ, p ≤ q → totalProfitLoss contracts p ≤ totalProfitLoss contracts q) :
    getMaxProfit (calculateXYValues contracts) = .fin (totalProfitLoss contracts 150) ∧
    getMaxLoss (calculateXYValues contracts) = .fin (totalProfitLoss contracts 50) := by
  constructor
  · apply getMaxProfit_eq_of_greatest _ _ (point_150_mem contracts)
    intro r hr
    obtain ⟨i, hi, rfl⟩ := mem_calculateXYValues contracts r hr
    exact hmono _ _ (samplePrice_bounds i hi).2
  · apply getMaxLoss_eq_of_least _ _ (point_50_mem contracts)
    intro r hr
    obtain ⟨i, hi, rfl⟩ := mem_calculateXYValues contracts r hr
    exact hmono _ _ (samplePrice_bounds i hi).1

/-- When the total never increases with the price, the maximum is the total at
50 and the minimum the total at 150. -/
theorem extremes_of_nonincreasing (contracts : List OptionsContract)
    (hanti : ∀ p q : ℚ, p ≤ q → totalProfitLoss contracts q ≤ totalProfitLoss contracts p) :
    getMaxProfit (calculateXYValues contracts) = .fin (totalProfitLoss contracts 50) ∧
    getMaxLoss (calculateXYValues contracts) = .fin (totalProfitLoss contracts 150) := by
  constructor
  · apply getMaxProfit_eq_of_greatest _ _ (point_50_mem contracts)
    intro r hr
    obtain ⟨i, hi, rfl⟩ := mem_calculateXYValues contracts r hr
    exact hanti _ _ (samplePrice_bounds i hi).1
  · apply getMaxLoss_eq_of_least _ _ (point_150_mem contracts)
    intro r hr
    obtain ⟨i, hi, rfl⟩ := mem_calculateXYValues contracts r hr
    exact hanti _ _ (samplePrice_bounds i hi).2

/-! ## Lemmas on the shape of the break-even list -/

theorem mem_breakEvenSpec_curve (contracts : List OptionsContract) (x : ℚ)
    (hx : x ∈ breakEvenSpec (calculateXYValues contracts)) :
    ∃ i : Nat, 1 ≤ i ∧ i ≤ 100 ∧ x = 50 + (i : ℚ) := by
  obtain ⟨i, hi1, hilt, hxi, _⟩ := mem_breakEvenSpec _ x hx
  rw [calculateXYValues_length] at hilt
  refine ⟨i, hi1, by omega, ?_⟩
  rw [hxi, pointAt_calculateXYValues contracts i (by omega)]

theorem breakEvenSpec_curve_pairwise (contracts : List OptionsContract) :
    List.Pairwise (fun a b => a < b) (breakEvenSpec (calculateXYValues contracts)) := by
  unfold breakEvenSpec
  rw [List.pairwise_map, calculateXYValues_length]
  apply List.Pairwise.imp_of_mem _ (List.Pairwise.filter _ (List.pairwise_lt_range 101))
  intro a b ha hb hab
  have ha2 : a < 101 := List.mem_range.mp (List.mem_filter.mp ha).1
  have hb2 : b < 101 := List.mem_range.mp (List.mem_filter.mp hb).1
  rw [pointAt_calculateXYValues contracts a (by omega),
    pointAt_calculateXYValues contracts b (by omega)]
  have : (a : ℚ) < b := by exact_mod_cast hab
  show (50 : ℚ) + a < 50 + b
  linarith

theorem breakEvenSpec_length_le (xy : List XYValue) :
    (breakEvenSpec xy).length ≤ xy.length - 1 := by
  have h1 := findBreakEvenPoints_eq_spec xy
  have h2 := breakEvenLoop_from xy (xy.length - 1) 1 [] (le_refl 1) rfl
  unfold findBreakEvenPoints at h1
  rw [h1] at h2
  rw [Option.some.inj h2, List.nil_append, List.length_map]
  calc (List.filter _ (List.range' 1 (xy.length - 1))).length
      ≤ (List.range' 1 (xy.length - 1)).length := List.length_filter_le _ _
    _ = xy.length - 1 := List.length_range' _ _ _

/-! ## Lemmas on binary64 rounding -/

namespace Binary64

theorem pow2_eq (e : ℤ) : pow2 e = (2 : ℚ) ^ e := by
  unfold pow2
  split_ifs with h
  · obtain ⟨n, rfl⟩ := Int.eq_ofNat_of_zero_le h
    simp
  · obtain ⟨n, rfl⟩ : ∃ n : ℕ, e = -(n : ℤ) := ⟨(-e).toNat, by omega⟩
    simp

theorem pow2_pos (e : ℤ) : 0 < pow2 e := by
  rw [pow2_eq]
  exact zpow_pos (by norm_num) e

theorem pow2_le_pow2 (a b : ℤ) (h : a ≤ b) : pow2 a ≤ pow2 b := by
  rw [pow2_eq, pow2_eq]
  exact zpow_le_zpow_right₀ (by norm_num) h

theorem pow2_lt_pow2_iff (a b : ℤ) : pow2 a < pow2 b ↔ a < b := by
  rw [pow2_eq, pow2_eq]
  exact zpow_lt_zpow_iff_right₀ (by norm_num)

theorem pow2_add (a b : ℤ) : pow2 (a + b) = pow2 a * pow2 b := by
  rw [pow2_eq, pow2_eq, pow2_eq]
  exact zpow_add₀ (by norm_num) a b

theorem pow2_natCast (n : ℕ) : pow2 (n : ℤ) = ((2 ^ n : ℕ) : ℚ) := by
  rw [pow2_eq]
  simp

theorem bitLog_spec : ∀ (fuel n : Nat), n ≤ fuel → n ≠ 0 →
    2 ^ bitLog fuel n ≤ n ∧ n < 2 ^ (bitLog fuel n + 1) := by
  intro fuel
  induction fuel with
  | zero => intro n h1 h2; omega
  | succ f ih =>
    intro n h1 h2
    unfold bitLog
    by_cases h : n < 2
    · rw [if_pos h]
      simp
      omega
    · rw [if_neg h]
      obtain ⟨ih1, ih2⟩ := ih (n / 2) (by omega) (by omega)
      rw [pow_succ, pow_succ]
      rw [pow_succ] at ih2
      constructor <;> omega

theorem natLog2_spec (n : Nat) (h : n ≠ 0) :
    2 ^ natLog2 n ≤ n ∧ n < 2 ^ (natLog2 n + 1) :=
  bitLog_spec n n (le_refl n) h

theorem abs_eq_natAbs_div_den (q : ℚ) : |q| = (q.num.natAbs : ℚ) / (q.den : ℚ) := by
  have h := Rat.num_div_den q
  have hden : (0 : ℚ) < q.den := by exact_mod_cast q.den_pos
  conv_lhs => rw [← h]
  rw [abs_div, abs_of_pos hden, Nat.cast_natAbs, Int.cast_abs]

theorem ilog2_spec (q : ℚ) (hq : q ≠ 0) :
    pow2 (ilog2 q) ≤ |q| ∧ |q| < pow2 (ilog2 q + 1) := by
  have ha : q.num.natAbs ≠ 0 := by
    simpa using Rat.num_ne_zero.mpr hq
  have hb : q.den ≠ 0 := q.den_nz
  obtain ⟨a1, a2⟩ := natLog2_spec _ ha
  obtain ⟨b1, b2⟩ := natLog2_spec _ hb
  have habs := abs_eq_natAbs_div_den q
  have hbpos : (0 : ℚ) < q.den := by exact_mod_cast q.den_pos
  have a1' : pow2 (natLog2 q.num.natAbs : ℤ) ≤ (q.num.natAbs : ℚ) := by
    rw [pow2_natCast]; exact_mod_cast a1
  have a2' : (q.num.natAbs : ℚ) < pow2 ((natLog2 q.num.natAbs : ℤ) + 1) := by
    rw [show ((natLog2 q.num.natAbs : ℤ) + 1) = ((natLog2 q.num.natAbs + 1 : ℕ) : ℤ) by simp,
      pow2_natCast]
    exact_mod_cast a2
  have b1' : pow2 (natLog2 q.den : ℤ) ≤ (q.den : ℚ) := by
    rw [pow2_natCast]; exact_mod_cast b1
  have b2' : (q.den : ℚ) < pow2 ((natLog2 q.den : ℤ) + 1) := by
    rw [show ((natLog2 q.den : ℤ) + 1) = ((natLog2 q.den + 1 : ℕ) : ℤ) by simp, pow2_natCast]
    exact_mod_cast b2
  have upper : |q| < pow2 ((natLog2 q.num.natAbs : ℤ) - (natLog2 q.den : ℤ) + 1) := by
    rw [habs, div_lt_iff₀ hbpos]
    calc (q.num.natAbs : ℚ) < pow2 ((natLog2 q.num.natAbs : ℤ) + 1) := a2'
      _ = pow2 ((natLog2 q.num.natAbs : ℤ) - (natLog2 q.den : ℤ) + 1) *
            pow2 (natLog2 q.den : ℤ) := by
          rw [← pow2_add]; congr 1; ring
      _ ≤ pow2 ((natLog2 q.num.natAbs : ℤ) - (natLog2 q.den : ℤ) + 1) * (q.den : ℚ) :=
          mul_le_mul_of_nonneg_left b1' (le_of_lt (pow2_pos _))
  have lower : pow2 ((natLog2 q.num.natAbs : ℤ) - (natLog2 q.den : ℤ) - 1) < |q| := by
    rw [habs, lt_div_iff₀ hbpos]
    calc pow2 ((natLog2 q.num.natAbs : ℤ) - (natLog2 q.den : ℤ) - 1) * (q.den : ℚ)
        < pow2 ((natLog2 q.num.natAbs : ℤ) - (natLog2 q.den : ℤ) - 1) *
            pow2 ((natLog2 q.den : ℤ) + 1) := mul_lt_mul_of_pos_left b2' (pow2_pos _)
      _ = pow2 (natLog2 q.num.natAbs : ℤ) := by
          rw [← pow2_add]; congr 1; ring
      _ ≤ (q.num.natAbs : ℚ) := a1'
  unfold ilog2
  split_ifs with h
  · exact ⟨h, upper⟩
  · push_neg at h
    refine ⟨le_of_lt lower, ?_⟩
    have hk : (natLog2 q.num.natAbs : ℤ) - (natLog2 q.den : ℤ) - 1 + 1 =
        (natLog2 q.num.natAbs : ℤ) - (natLog2 q.den : ℤ) := by ring
    rw [hk]
    exact h

theorem le_ilog2_of_le_abs (q : ℚ) (e : ℤ) (hq : q ≠ 0) (h : pow2 e ≤ |q|) : e ≤ ilog2 q := by
  have h2 := (ilog2_spec q hq).2
  have := (pow2_lt_pow2_iff _ _).mp (lt_of_le_of_lt h h2)
  omega

theorem ilog2_mono (a b : ℚ) (ha : a ≠ 0) (h : |a| ≤ |b|) : ilog2 a ≤ ilog2 b := by
  have hb : b ≠ 0 := by
    intro hb
    rw [hb, abs_zero] at h
    exact ha (abs_eq_zero.mp (le_antisymm h (abs_nonneg a)))
  exact le_ilog2_of_le_abs b _ hb (le_trans (ilog2_spec a ha).1 h)

theorem exponent_ge (q : ℚ) : -1022 ≤ exponent q := le_max_right _ _

theorem ilog2_le_exponent (q : ℚ) : ilog2 q ≤ exponent q := le_max_left _ _

theorem exponent_mono (a b : ℚ) (ha : a ≠ 0) (h : |a| ≤ |b|) : exponent a ≤ exponent b :=
  max_le_max (ilog2_mono a b ha h) (le_refl _)

theorem abs_lt_pow2_exponent (q : ℚ) : |q| < pow2 (exponent q + 1) := by
  by_cases hq : q = 0
  · rw [hq, abs_zero]; exact pow2_pos _
  · exact lt_of_lt_of_le (ilog2_spec q hq).2
      (pow2_le_pow2 _ _ (by have := ilog2_le_exponent q; omega))

theorem exponent_eq_ilog2_of_lt (q : ℚ) (e : ℤ) (he : -1022 ≤ e) (h : e < exponent q) :
    exponent q = ilog2 q := by
  unfold exponent at *
  rcases max_cases (ilog2 q) (-1022) with ⟨h1, _⟩ | ⟨h1, _⟩
  · exact h1
  · rw [h1] at h; omega

theorem quantum_pos (q : ℚ) : 0 < quantum q := pow2_pos _

theorem le_roundHalfEven (n : ℤ) (q : ℚ) (h : (n : ℚ) ≤ q) : n ≤ roundHalfEven q := by
  have hf : n ≤ ⌊q⌋ := Int.le_floor.mpr h
  unfold roundHalfEven
  split_ifs <;> omega

theorem roundHalfEven_le (n : ℤ) (q : ℚ) (h : q ≤ (n : ℚ)) : roundHalfEven q ≤ n := by
  have hf : (⌊q⌋ : ℚ) ≤ q := Int.floor_le q
  have hfn : ⌊q⌋ ≤ n := by
    have : (⌊q⌋ : ℚ) ≤ (n : ℚ) := le_trans hf h
    exact_mod_cast this
  have hstep : q - (⌊q⌋ : ℚ) ≥ 1 / 2 → ⌊q⌋ + 1 ≤ n := by
    intro hd
    have : (⌊q⌋ : ℚ) < (n : ℚ) := by linarith
    have : ⌊q⌋ < n := by exact_mod_cast this
    omega
  unfold roundHalfEven
  split_ifs with h1 h2 h3
  · exact hfn
  · exact hstep (le_of_lt h2)
  · exact hfn
  · exact hstep (not_lt.mp h1)

/-- A grid point of the quantum of `q` that lies below `q` lies below its rounding. -/
theorem grid_le_nearest (m : ℤ) (q : ℚ) (h : (m : ℚ) * quantum q ≤ q) :
    (m : ℚ) * quantum q ≤ nearest q := by
  have hu := quantum_pos q
  have h1 : (m : ℚ) ≤ q / quantum q := (le_div_iff₀ hu).mpr h
  have h2 : (m : ℚ) ≤ (roundHalfEven (q / quantum q) : ℚ) := by
    exact_mod_cast le_roundHalfEven m _ h1
  unfold nearest
  exact mul_le_mul_of_nonneg_right h2 (le_of_lt hu)

theorem nearest_le_grid (m : ℤ) (q : ℚ) (h : q ≤ (m : ℚ) * quantum q) :
    nearest q ≤ (m : ℚ) * quantum q := by
  have hu := quantum_pos q
  have h1 : q / quantum q ≤ (m : ℚ) := (div_le_iff₀ hu).mpr h
  have h2 : (roundHalfEven (q / quantum q) : ℚ) ≤ (m : ℚ) := by
    exact_mod_cast roundHalfEven_le m _ h1
  unfold nearest
  exact mul_le_mul_of_nonneg_right h2 (le_of_lt hu)

theorem pow2_le_pow2_iff (a b : ℤ) : pow2 a ≤ pow2 b ↔ a ≤ b := by
  rw [pow2_eq, pow2_eq]
  exact zpow_le_zpow_iff_right₀ (by norm_num)

theorem pow2_split (a b : ℤ) (h : a ≤ b) :
    pow2 b = (((2 ^ (b - a).toNat : ℕ) : ℤ) : ℚ) * pow2 a := by
  have hb : b = ((b - a).toNat : ℤ) + a := by omega
  conv_lhs => rw [hb]
  rw [pow2_add, pow2_natCast]
  push_cast
  ring

theorem pow2_exponent_eq (q : ℚ) :
    pow2 (exponent q) = (((2 ^ 52 : ℕ) : ℤ) : ℚ) * quantum q := by
  unfold quantum
  have h := pow2_split (exponent q - 52) (exponent q) (by omega)
  have h52 : (exponent q - (exponent q - 52)).toNat = 52 := by omega
  rw [h52] at h
  exact h

theorem pow2_exponent_succ_eq (q : ℚ) :
    pow2 (exponent q + 1) = (((2 ^ 53 : ℕ) : ℤ) : ℚ) * quantum q := by
  unfold quantum
  have h := pow2_split (exponent q - 52) (exponent q + 1) (by omega)
  have h53 : (exponent q + 1 - (exponent q - 52)).toNat = 53 := by omega
  rw [h53] at h
  exact h

theorem nearest_nonneg (q : ℚ) (h : 0 ≤ q) : 0 ≤ nearest q := by
  have := grid_le_nearest 0 q (by simpa using h)
  simpa using this

theorem nearest_nonpos (q : ℚ) (h : q ≤ 0) : nearest q ≤ 0 := by
  have := nearest_le_grid 0 q (by simpa using h)
  simpa using this

/-- Rounding never moves below a grid value that was below the argument. -/
theorem onGrid_le_nearest (r0 q : ℚ) (hr : OnGrid r0) (h : r0 ≤ q) : r0 ≤ nearest q := by
  obtain ⟨n0, hn0⟩ := hr
  by_cases hr0 : 0 < r0
  · have hq : 0 < q := lt_of_lt_of_le hr0 h
    have habs : |r0| ≤ |q| := by
      rw [abs_of_pos hr0, abs_of_pos hq]; exact h
    have hexp := exponent_mono r0 q (ne_of_gt hr0) habs
    rcases eq_or_lt_of_le hexp with heq | hlt
    · have hqu : quantum r0 = quantum q := by unfold quantum; rw [heq]
      have h1 : (n0 : ℚ) * quantum q ≤ q := by rw [← hqu, ← hn0]; exact h
      have h2 := grid_le_nearest n0 q h1
      rw [← hqu, ← hn0] at h2
      exact h2
    · have hil := exponent_eq_ilog2_of_lt q (exponent r0) (exponent_ge r0) hlt
      have h2e : pow2 (exponent q) ≤ q := by
        have := (ilog2_spec q (ne_of_gt hq)).1
        rw [← hil, abs_of_pos hq] at this
        exact this
      have h3 : pow2 (exponent q) ≤ nearest q := by
        rw [pow2_exponent_eq]
        apply grid_le_nearest
        rw [← pow2_exponent_eq]
        exact h2e
      have h4 : r0 < pow2 (exponent q) := by
        have := abs_lt_pow2_exponent r0
        rw [abs_of_pos hr0] at this
        exact lt_of_lt_of_le this (pow2_le_pow2 _ _ (by omega))
      linarith
  · push_neg at hr0
    by_cases hq : 0 ≤ q
    · have := nearest_nonneg q hq
      linarith
    · push_neg at hq
      have hr0neg : r0 < 0 := lt_of_le_of_lt h hq
      have habs : |q| ≤ |r0| := by
        rw [abs_of_neg hq, abs_of_neg hr0neg]; linarith
      have hexp := exponent_mono q r0 (ne_of_lt hq) habs
      have hsplit := pow2_split (exponent q - 52) (exponent r0 - 52) (by omega)
      have hr0' : r0 = ((n0 * ((2 ^ (exponent r0 - 52 - (exponent q - 52)).toNat : ℕ) : ℤ) : ℤ) : ℚ)
          * quantum q := by
        calc r0 = (n0 : ℚ) * quantum r0 := hn0
          _ = _ := by
            unfold quantum
            rw [hsplit]
            push_cast
            ring
      have h1 := grid_le_nearest _ q (by rw [← hr0']; exact h)
      rw [← hr0'] at h1
      exact h1

/-- Rounding never moves above a grid value that was above the argument. -/
theorem nearest_le_onGrid (r0 q : ℚ) (hr : OnGrid r0) (h : q ≤ r0) : nearest q ≤ r0 := by
  obtain ⟨n0, hn0⟩ := hr
  by_cases hr0 : r0 < 0
  · have hq : q < 0 := lt_of_le_of_lt h hr0
    have habs : |r0| ≤ |q| := by
      rw [abs_of_neg hr0, abs_of_neg hq]; linarith
    have hexp := exponent_mono r0 q (ne_of_lt hr0) habs
    rcases eq_or_lt_of_le hexp with heq | hlt
    · have hqu : quantum r0 = quantum q := by unfold quantum; rw [heq]
      have h1 : q ≤ (n0 : ℚ) * quantum q := by rw [← hqu, ← hn0]; exact h
      have h2 := nearest_le_grid n0 q h1
      rw [← hqu, ← hn0] at h2
      exact h2
    · have hil := exponent_eq_ilog2_of_lt q (exponent r0) (exponent_ge r0) hlt
      have h2e : q ≤ -pow2 (exponent q) := by
        have := (ilog2_spec q (ne_of_lt hq)).1
        rw [← hil, abs_of_neg hq] at this
        linarith
      have hneg : -pow2 (exponent q) = ((-((2 ^ 52 : ℕ) : ℤ) : ℤ) : ℚ) * quantum q := by
        rw [pow2_exponent_eq]; push_cast; ring
      have h3 : nearest q ≤ -pow2 (exponent q) := by
        rw [hneg]
        apply nearest_le_grid
        rw [← hneg]
        exact h2e
      have h4 : -pow2 (exponent q) < r0 := by
        have := abs_lt_pow2_exponent r0
        rw [abs_of_neg hr0] at this
        have := lt_of_lt_of_le this (pow2_le_pow2 _ _ (by omega) : pow2 (exponent r0 + 1) ≤ pow2 (exponent q))
        linarith
      linarith
  · push_neg at hr0
    by_cases hq : q ≤ 0
    · have := nearest_nonpos q hq
      linarith
    · push_neg at hq
      have hr0pos : 0 < r0 := lt_of_lt_of_le hq h
      have habs : |q| ≤ |r0| := by
        rw [abs_of_pos hq, abs_of_pos hr0pos]; exact h
      have hexp := exponent_mono q r0 (ne_of_gt hq) habs
      have hsplit := pow2_split (exponent q - 52) (exponent r0 - 52) (by omega)
      have hr0' : r0 = ((n0 * ((2 ^ (exponent r0 - 52 - (exponent q - 52)).toNat : ℕ) : ℤ) : ℤ) : ℚ)
          * quantum q := by
        calc r0 = (n0 : ℚ) * quantum r0 := hn0
          _ = _ := by
            unfold quantum
            rw [hsplit]
            push_cast
            ring
      have h1 := nearest_le_grid _ q (by rw [← hr0']; exact h)
      rw [← hr0'] at h1
      exact h1

theorem abs_nearest_le (q : ℚ) : |nearest q| ≤ pow2 (exponent q + 1) := by
  have hb := abs_lt_pow2_exponent q
  rw [abs_le]
  constructor
  · have hneg : -pow2 (exponent q + 1) = ((-((2 ^ 53 : ℕ) : ℤ) : ℤ) : ℚ) * quantum q := by
      rw [pow2_exponent_succ_eq]; push_cast; ring
    rw [hneg]
    apply grid_le_nearest
    rw [← hneg]
    have := neg_abs_le q
    linarith
  · rw [pow2_exponent_succ_eq]
    apply nearest_le_grid
    rw [← pow2_exponent_succ_eq]
    have := le_abs_self q
    linarith

/-- The rounding of any rational lies on the grid of its own quantum. -/
theorem nearest_onGrid (q : ℚ) : OnGrid (nearest q) := by
  by_cases hr : nearest q = 0
  · exact ⟨0, by rw [hr]; simp⟩
  by_cases hle : exponent (nearest q) ≤ exponent q
  · have hsplit := pow2_split (exponent (nearest q) - 52) (exponent q - 52) (by omega)
    refine ⟨roundHalfEven (q / quantum q) *
      ((2 ^ (exponent q - 52 - (exponent (nearest q) - 52)).toNat : ℕ) : ℤ), ?_⟩
    conv_lhs => unfold nearest
    conv_lhs => unfold quantum
    conv_rhs => unfold quantum
    rw [hsplit]
    push_cast
    ring
  · push_neg at hle
    have hil := exponent_eq_ilog2_of_lt (nearest q) (exponent q) (exponent_ge q) hle
    have h1 : pow2 (exponent (nearest q)) ≤ |nearest q| := by
      have := (ilog2_spec (nearest q) hr).1
      rw [← hil] at this
      exact this
    have h2 := abs_nearest_le q
    have h3 : exponent (nearest q) ≤ exponent q + 1 :=
      (pow2_le_pow2_iff _ _).mp (le_trans h1 h2)
    have h4 : exponent (nearest q) = exponent q + 1 := by omega
    rw [h4] at h1
    have h5 : |nearest q| = pow2 (exponent (nearest q)) := by
      rw [h4]; exact le_antisymm h2 h1
    rcases abs_cases (nearest q) with ⟨ha, _⟩ | ⟨ha, _⟩
    · refine ⟨((2 ^ 52 : ℕ) : ℤ), ?_⟩
      rw [← pow2_exponent_eq, ← h5, ha]
    · refine ⟨-((2 ^ 52 : ℕ) : ℤ), ?_⟩
      have : nearest q = -pow2 (exponent (nearest q)) := by rw [← h5, ha]; ring
      conv_lhs => rw [this]
      rw [pow2_exponent_eq]
      push_cast
      ring

theorem eq_of_same (a b : Binary64) (h : same a b = true) : a = b := by
  cases a <;> cases b <;> simp [same] at h ⊢
  exact le_antisymm h.1 h.2

theorem representable_zero : Representable 0 :=
  ⟨⟨0, by simp⟩, by rw [abs_zero]; exact pow2_pos _⟩

theorem le_round_of_le (r0 q : ℚ) (hr : Representable r0) (h : r0 ≤ q) :
    le (fin r0) (roundTiesToEven q) = true := by
  have hmain := onGrid_le_nearest r0 q hr.1 h
  unfold roundTiesToEven
  split_ifs with hov hpos
  · rfl
  · exfalso
    push_neg at hpos
    have h1 := nearest_nonpos q hpos
    have h2 : |nearest q| ≤ |r0| := by
      rw [abs_of_nonpos h1, abs_of_nonpos (le_trans hmain h1)]
      linarith
    have := hr.2
    linarith
  · simpa [le] using hmain

theorem round_le_of_le (r0 q : ℚ) (hr : Representable r0) (h : q ≤ r0) :
    le (roundTiesToEven q) (fin r0) = true := by
  have hmain := nearest_le_onGrid r0 q hr.1 h
  unfold roundTiesToEven
  split_ifs with hov hpos
  · exfalso
    have h1 := nearest_nonneg q (le_of_lt hpos)
    have h2 : |nearest q| ≤ |r0| := by
      rw [abs_of_nonneg h1, abs_of_nonneg (le_trans h1 hmain)]
      exact hmain
    have := hr.2
    linarith
  · rfl
  · simpa [le] using hmain

theorem representable_of_round (q r : ℚ) (h : roundTiesToEven q = fin r) : Representable r := by
  unfold roundTiesToEven at h
  split_ifs at h with hov hpos
  push_neg at hov
  have hr : nearest q = r := by injection h
  rw [← hr]
  exact ⟨nearest_onGrid q, hov⟩

theorem round_wellFormed (q : ℚ) : WellFormed (roundTiesToEven q) := by
  cases h : roundTiesToEven q with
  | fin r => exact representable_of_round q r h
  | nan => trivial
  | negInf => trivial
  | posInf => trivial

/-- Rounding leaves a representable value unchanged. -/
theorem round_of_representable (r : ℚ) (hr : Representable r) : roundTiesToEven r = fin r := by
  have h1 := le_round_of_le r r hr (le_refl r)
  have h2 := round_le_of_le r r hr (le_refl r)
  cases h : roundTiesToEven r with
  | fin s =>
    rw [h] at h1 h2
    simp [le] at h1 h2
    rw [le_antisymm h2 h1]
  | nan => rw [h] at h1; simp [le] at h1
  | negInf => rw [h] at h1; simp [le] at h1
  | posInf => rw [h] at h2; simp [le] at h2

theorem sub_wellFormed (a b : Binary64) : WellFormed (sub a b) := by
  cases a <;> cases b <;> simp only [sub] <;> first | trivial | exact round_wellFormed _

theorem add_swap (a b : Binary64) : add a b = add b a := by
  cases a <;> cases b <;> simp only [add]
  rw [add_comm]

theorem zero_add_wellFormed (x : Binary64) (hx : WellFormed x) : add (fin 0) x = x := by
  cases x with
  | fin r =>
    simp only [add]
    rw [zero_add]
    exact round_of_representable r hx
  | nan => rfl
  | negInf => rfl
  | posInf => rfl

theorem quantum_neg (q : ℚ) : quantum (-q) = quantum q := by
  unfold quantum exponent ilog2
  simp

theorem representable_neg (r : ℚ) (h : Representable r) : Representable (-r) := by
  obtain ⟨⟨n, hn⟩, hb⟩ := h
  refine ⟨⟨-n, ?_⟩, by rw [abs_neg]; exact hb⟩
  rw [quantum_neg]
  push_cast
  rw [neg_mul, ← hn]

theorem le_of_lt64 (a b : Binary64) (h : lt a b = true) : le a b = true := by
  cases a <;> cases b <;> simp [lt, le] at h ⊢
  exact le_of_lt h

theorem le_of_lt_eq_false (a b : Binary64) (ha : a ≠ nan) (hb : b ≠ nan)
    (h : lt a b = false) : le b a = true := by
  cases a <;> cases b <;> simp [lt, le] at h ha hb ⊢
  exact h

theorem le_trans64 (a b c : Binary64) (h1 : le a b = true) (h2 : le b c = true) :
    le a c = true := by
  cases a <;> cases b <;> cases c <;> simp [le] at h1 h2 ⊢
  exact le_trans h1 h2

theorem le_refl64 (a : Binary64) (ha : a ≠ nan) : le a a = true := by
  cases a <;> simp [le] at ha ⊢

theorem lt_irrefl64 (a : Binary64) : lt a a = false := by
  cases a <;> simp [lt]

theorem ne_of_lt64 (a b : Binary64) (h : lt a b = true) : a ≠ b := by
  intro hab
  rw [hab, lt_irrefl64] at h
  exact Bool.false_ne_true h

theorem isFinite_ne_nan (a : Binary64) (h : isFinite a = true) : a ≠ nan := by
  cases a <;> simp [isFinite] at h ⊢

theorem pow2_exponent_le_nearest (q : ℚ) (hq : 0 < q) (he : -1022 < exponent q) :
    pow2 (exponent q) ≤ nearest q := by
  have hil := exponent_eq_ilog2_of_lt q (-1022) (le_refl _) he
  have h2e : pow2 (exponent q) ≤ q := by
    have := (ilog2_spec q (ne_of_gt hq)).1
    rw [← hil, abs_of_pos hq] at this
    exact this
  rw [pow2_exponent_eq]
  apply grid_le_nearest
  rw [← pow2_exponent_eq]
  exact h2e

theorem nearest_le_neg_pow2_exponent (q : ℚ) (hq : q < 0) (he : -1022 < exponent q) :
    nearest q ≤ -pow2 (exponent q) := by
  have hil := exponent_eq_ilog2_of_lt q (-1022) (le_refl _) he
  have h2e : q ≤ -pow2 (exponent q) := by
    have := (ilog2_spec q (ne_of_lt hq)).1
    rw [← hil, abs_of_neg hq] at this
    linarith
  have hneg : -pow2 (exponent q) = ((-((2 ^ 52 : ℕ) : ℤ) : ℤ) : ℚ) * quantum q := by
    rw [pow2_exponent_eq]; push_cast; ring
  rw [hneg]
  apply nearest_le_grid
  rw [← hneg]
  exact h2e

/-- An exact result of `2 ^ 1024` or more overflows to positive infinity. -/
theorem round_eq_posInf (q : ℚ) (h : pow2 1024 ≤ q) : roundTiesToEven q = posInf := by
  have hq : 0 < q := lt_of_lt_of_le (pow2_pos _) h
  have he : (1024 : ℤ) ≤ exponent q :=
    le_trans (le_ilog2_of_le_abs q 1024 (ne_of_gt hq) (by rw [abs_of_pos hq]; exact h))
      (ilog2_le_exponent q)
  have h1 := pow2_exponent_le_nearest q hq (by omega)
  have h2 : pow2 1024 ≤ nearest q := le_trans (pow2_le_pow2 _ _ he) h1
  have h3 : pow2 1024 ≤ |nearest q| := le_trans h2 (le_abs_self _)
  unfold roundTiesToEven
  rw [if_pos h3, if_pos hq]

/-- An exact result of `-(2 ^ 1024)` or less overflows to negative infinity. -/
theorem round_eq_negInf (q : ℚ) (h : q ≤ -pow2 1024) : roundTiesToEven q = negInf := by
  have hq : q < 0 := lt_of_le_of_lt h (by have := pow2_pos 1024; linarith)
  have he : (1024 : ℤ) ≤ exponent q :=
    le_trans (le_ilog2_of_le_abs q 1024 (ne_of_lt hq) (by rw [abs_of_neg hq]; linarith))
      (ilog2_le_exponent q)
  have h1 := nearest_le_neg_pow2_exponent q hq (by omega)
  have h2 : nearest q ≤ -pow2 1024 := by
    have := pow2_le_pow2 _ _ he
    linarith
  have h3 : pow2 1024 ≤ |nearest q| := by
    have := neg_le_abs (nearest q)
    linarith
  unfold roundTiesToEven
  rw [if_pos h3, if_neg (not_lt.mpr (le_of_lt hq))]

end Binary64

/-! ## Lemmas on the program over binary64 -/

namespace Fp64

open Binary64

theorem priceLoop_from64 (contracts : List OptionsContract) (n : Nat) :
    ∀ (k : Nat) (acc : List XYValue), k + n = 101 →
      priceLoop contracts (samplePrice k) acc =
        acc ++ (List.range' k n).map
          (fun i => { X := samplePrice i, Y := totalProfitLoss contracts (samplePrice i) }) := by
  induction n with
  | zero =>
    intro k acc hk
    have hgt : ¬ samplePrice k ≤ 150 := by
      rw [samplePrice_le_iff]; omega
    rw [priceLoop, if_neg hgt]
    simp
  | succ n ih =>
    intro k acc hk
    have hle : samplePrice k ≤ 150 := by
      rw [samplePrice_le_iff]; omega
    rw [priceLoop, if_pos hle, samplePrice_succ, ih (k + 1) _ (by omega)]
    simp [List.range'_succ]

theorem calculateXYValues_eq_curveSpec64 (contracts : List OptionsContract) :
    calculateXYValues contracts = curveSpec contracts := by
  have h := priceLoop_from64 contracts 101 0 [] (by norm_num)
  have h50 : samplePrice 0 = 50 := by simp [samplePrice]
  rw [h50] at h
  unfold calculateXYValues curveSpec
  rw [h, List.range_eq_range']
  simp

theorem calculateXYValues_length64 (contracts : List OptionsContract) :
    (calculateXYValues contracts).length = 101 := by
  rw [calculateXYValues_eq_curveSpec64]
  simp [curveSpec]

theorem calculateXYValues_getElem64 (contracts : List OptionsContract) (i : Nat)
    (hi : i < 101) :
    (calculateXYValues contracts)[i]? =
      some { X := samplePrice i, Y := totalProfitLoss contracts (samplePrice i) } := by
  rw [calculateXYValues_eq_curveSpec64]
  simp [curveSpec, List.getElem?_map, List.getElem?_range hi]

theorem calculateXYValues_ne_nil64 (contracts : List OptionsContract) :
    calculateXYValues contracts ≠ [] := by
  intro h
  have hlen := calculateXYValues_length64 contracts
  rw [h] at hlen
  simp at hlen

theorem mem_calculateXYValues64 (contracts : List OptionsContract) (p : XYValue)
    (hp : p ∈ calculateXYValues contracts) :
    ∃ i : Nat, i ≤ 100 ∧
      p = { X := samplePrice i, Y := totalProfitLoss contracts (samplePrice i) } := by
  rw [calculateXYValues_eq_curveSpec64] at hp
  unfold curveSpec at hp
  rw [List.mem_map] at hp
  obtain ⟨i, hi, rfl⟩ := hp
  rw [List.mem_range] at hi
  exact ⟨i, by omega, rfl⟩

/-- On a valid contract the code's switch computes the tabulated payoff. -/
theorem contractProfitLoss_eq_payoffSpec64 (c : OptionsContract) (price : ℚ)
    (hc : ValidContract c) : contractProfitLoss c price = payoffSpec c price := by
  obtain ⟨ht, hl⟩ := hc
  rcases ht with ht | ht <;> rcases hl with hl | hl <;>
    simp [contractProfitLoss, payoffSpec, calculateCallProfitLoss, calculatePutProfitLoss, ht, hl]

theorem totalProfitLoss_eq_foldl_payoffSpec (contracts : List OptionsContract) (price : ℚ)
    (hvalid : ValidContracts contracts) :
    totalProfitLoss contracts price =
      (contracts.map (fun c => payoffSpec c price)).foldl add (fin 0) := by
  unfold totalProfitLoss
  rw [List.foldl_map]
  have hgen : ∀ (cs : List OptionsContract) (start : Binary64), ValidContracts cs →
      cs.foldl (fun total contract => add total (contractProfitLoss contract price)) start =
        cs.foldl (fun total c => add total (payoffSpec c price)) start := by
    intro cs
    induction cs with
    | nil => intro start _; rfl
    | cons c cs ih =>
      intro start hv
      rw [List.foldl_cons, List.foldl_cons,
        contractProfitLoss_eq_payoffSpec64 c price (hv c (List.mem_cons_self _ _))]
      exact ih _ (fun d hd => hv d (List.mem_cons_of_mem _ hd))
  exact hgen contracts (fin 0) hvalid

/-! ### Maximum and minimum -/

theorem foldl_max64 (xs : List XYValue) :
    ∀ m : Binary64, m ≠ nan → (∀ p ∈ xs, p.Y ≠ nan) →
      ∃ r : Binary64,
        xs.foldl (fun maxProfit xy => if lt maxProfit xy.Y then xy.Y else maxProfit) m = r ∧
        r ≠ nan ∧ le m r = true ∧ (∀ p ∈ xs, le p.Y r = true) ∧
        (r = m ∨ ∃ p ∈ xs, p.Y = r) := by
  induction xs with
  | nil => intro m hm _; exact ⟨m, rfl, hm, le_refl64 m hm, by simp, Or.inl rfl⟩
  | cons x xs ih =>
    intro m hm hall
    have hx : x.Y ≠ nan := hall x (List.mem_cons_self _ _)
    have hxs : ∀ p ∈ xs, p.Y ≠ nan := fun p hp => hall p (List.mem_cons_of_mem _ hp)
    rw [List.foldl_cons]
    cases hlt : lt m x.Y with
    | true =>
      obtain ⟨r, hr, hrn, hle, hdom, hex⟩ := ih x.Y hx hxs
      refine ⟨r, by simpa [hlt] using hr, hrn, le_trans64 _ _ _ (le_of_lt64 _ _ hlt) hle, ?_, ?_⟩
      · intro p hp
        rcases List.mem_cons.mp hp with rfl | hp
        · exact hle
        · exact hdom p hp
      · right
        rcases hex with rfl | ⟨p, hp, rfl⟩
        · exact ⟨x, List.mem_cons_self _ _, rfl⟩
        · exact ⟨p, List.mem_cons_of_mem _ hp, rfl⟩
    | false =>
      obtain ⟨r, hr, hrn, hle, hdom, hex⟩ := ih m hm hxs
      refine ⟨r, by simpa [hlt] using hr, hrn, hle, ?_, ?_⟩
      · intro p hp
        rcases List.mem_cons.mp hp with rfl | hp
        · exact le_trans64 _ _ _ (le_of_lt_eq_false _ _ hm hx hlt) hle
        · exact hdom p hp
      · rcases hex with rfl | ⟨p, hp, rfl⟩
        · left; rfl
        · right; exact ⟨p, List.mem_cons_of_mem _ hp, rfl⟩

theorem foldl_min64 (xs : List XYValue) :
    ∀ m : Binary64, m ≠ nan → (∀ p ∈ xs, p.Y ≠ nan) →
      ∃ r : Binary64,
        xs.foldl (fun maxLoss xy => if lt xy.Y maxLoss then xy.Y else maxLoss) m = r ∧
        r ≠ nan ∧ le r m = true ∧ (∀ p ∈ xs, le r p.Y = true) ∧
        (r = m ∨ ∃ p ∈ xs, p.Y = r) := by
  induction xs with
  | nil => intro m hm _; exact ⟨m, rfl, hm, le_refl64 m hm, by simp, Or.inl rfl⟩
  | cons x xs ih =>
    intro m hm hall
    have hx : x.Y ≠ nan := hall x (List.mem_cons_self _ _)
    have hxs : ∀ p ∈ xs, p.Y ≠ nan := fun p hp => hall p (List.mem_cons_of_mem _ hp)
    rw [List.foldl_cons]
    cases hlt : lt x.Y m with
    | true =>
      obtain ⟨r, hr, hrn, hle, hdom, hex⟩ := ih x.Y hx hxs
      refine ⟨r, by simpa [hlt] using hr, hrn, le_trans64 _ _ _ hle (le_of_lt64 _ _ hlt), ?_, ?_⟩
      · intro p hp
        rcases List.mem_cons.mp hp with rfl | hp
        · exact hle
        · exact hdom p hp
      · right
        rcases hex with rfl | ⟨p, hp, rfl⟩
        · exact ⟨x, List.mem_cons_self _ _, rfl⟩
        · exact ⟨p, List.mem_cons_of_mem _ hp, rfl⟩
    | false =>
      obtain ⟨r, hr, hrn, hle, hdom, hex⟩ := ih m hm hxs
      refine ⟨r, by simpa [hlt] using hr, hrn, hle, ?_, ?_⟩
      · intro p hp
        rcases List.mem_cons.mp hp with rfl | hp
        · exact le_trans64 _ _ _ hle (le_of_lt_eq_false _ _ hx hm hlt)
        · exact hdom p hp
      · rcases hex with rfl | ⟨p, hp, rfl⟩
        · left; rfl
        · right; exact ⟨p, List.mem_cons_of_mem _ hp, rfl⟩

theorem le_negInf_eq (a : Binary64) (h : le a negInf = true) : a = negInf := by
  cases a <;> simp [le] at h ⊢

theorem posInf_le_eq (a : Binary64) (h : le posInf a = true) : a = posInf := by
  cases a <;> simp [le] at h ⊢

/-- On a curve with at least one point and no NaN the maximum is attained and
dominates. -/
theorem getMaxProfit_attained64 (xy : List XYValue) (hne : xy ≠ [])
    (hnan : ∀ p ∈ xy, p.Y ≠ nan) :
    ∃ p ∈ xy, getMaxProfit xy = p.Y ∧ ∀ q ∈ xy, le q.Y p.Y = true := by
  obtain ⟨r, hr, _, _, hdom, hex⟩ := foldl_max64 xy negInf (by simp) hnan
  have hget : getMaxProfit xy = r := hr
  rcases hex with rfl | ⟨p, hp, rfl⟩
  · cases xy with
    | nil => exact absurd rfl hne
    | cons x xs =>
      have hx := le_negInf_eq _ (hdom x (List.mem_cons_self _ _))
      refine ⟨x, List.mem_cons_self _ _, by rw [hget, hx], ?_⟩
      intro q hq
      rw [hx]
      exact hdom q hq
  · exact ⟨p, hp, hget, hdom⟩

/-- On a curve with at least one point and no NaN the minimum is attained and is
a lower bound. -/
theorem getMaxLoss_attained64 (xy : List XYValue) (hne : xy ≠ [])
    (hnan : ∀ p ∈ xy, p.Y ≠ nan) :
    ∃ p ∈ xy, getMaxLoss xy = p.Y ∧ ∀ q ∈ xy, le p.Y q.Y = true := by
  obtain ⟨r, hr, _, _, hdom, hex⟩ := foldl_min64 xy posInf (by simp) hnan
  have hget : getMaxLoss xy = r := hr
  rcases hex with rfl | ⟨p, hp, rfl⟩
  · cases xy with
    | nil => exact absurd rfl hne
    | cons x xs =>
      have hx := posInf_le_eq _ (hdom x (List.mem_cons_self _ _))
      refine ⟨x, List.mem_cons_self _ _, by rw [hget, hx], ?_⟩
      intro q hq
      rw [hx]
      exact hdom q hq
  · exact ⟨p, hp, hget, hdom⟩

/-! ### Break-even detection and the handler -/

/-- The detection loop never reads out of range. -/
theorem breakEvenLoop_total64 (xy : List XYValue) (n : Nat) :
    ∀ (i : Nat) (acc : List ℚ), 1 ≤ i → xy.length - i = n →
      ∃ bes, breakEvenLoop xy i acc = some bes := by
  induction n with
  | zero =>
    intro i acc _ hn
    have hge : ¬ i < xy.length := by omega
    rw [breakEvenLoop, if_neg hge]
    exact ⟨acc, rfl⟩
  | succ n ih =>
    intro i acc hi hn
    have hlt : i < xy.length := by omega
    have hprev : xy[i - 1]? = some (xy[i - 1]) := List.getElem?_eq_getElem (by omega)
    have hcurr : xy[i]? = some (xy[i]) := List.getElem?_eq_getElem hlt
    rw [breakEvenLoop, if_pos hlt, hprev, hcurr]
    simp only []
    split_ifs
    · exact ih (i + 1) _ (by omega) (by omega)
    · exact ih (i + 1) _ (by omega) (by omega)

theorem findBreakEvenPoints_total64 (xy : List XYValue) :
    ∃ bes, findBreakEvenPoints xy = some bes :=
  breakEvenLoop_total64 xy (xy.length - 1) 1 [] (le_refl 1) rfl

theorem findBreakEvenPoints_nil64 : findBreakEvenPoints [] = some [] := by
  unfold findBreakEvenPoints
  rw [breakEvenLoop]
  simp

theorem findBreakEvenPoints_singleton64 (p : XYValue) : findBreakEvenPoints [p] = some [] := by
  unfold findBreakEvenPoints
  rw [breakEvenLoop]
  simp

theorem jsonEncodable_iff (contracts : List OptionsContract) (bes : List ℚ) :
    jsonEncodable
      { XYValues := calculateXYValues contracts,
        MaxProfit := getMaxProfit (calculateXYValues contracts),
        MaxLoss := getMaxLoss (calculateXYValues contracts),
        BreakEvenPoints := bes } = true ↔ FiniteResult contracts := by
  unfold jsonEncodable FiniteResult
  simp only [Bool.and_eq_true, List.all_eq_true, and_assoc]

theorem analyze_of_valid64 (contracts : List OptionsContract) (h : ValidContracts contracts) :
    ∃ bes, findBreakEvenPoints (calculateXYValues contracts) = some bes ∧
      AnalyzeOptionsContracts (some contracts) =
        if jsonEncodable
            { XYValues := calculateXYValues contracts,
              MaxProfit := getMaxProfit (calculateXYValues contracts),
              MaxLoss := getMaxLoss (calculateXYValues contracts),
              BreakEvenPoints := bes } then
          some { status := 200,
                 body := .analysis
                   { XYValues := calculateXYValues contracts,
                     MaxProfit := getMaxProfit (calculateXYValues contracts),
                     MaxLoss := getMaxLoss (calculateXYValues contracts),
                     BreakEvenPoints := bes } }
        else
          some { status := 500, body := .encoderError } := by
  obtain ⟨bes, hbes⟩ := findBreakEvenPoints_total64 (calculateXYValues contracts)
  have hv := (validateContracts_eq_none_iff contracts).mpr h
  refine ⟨bes, hbes, ?_⟩
  simp only [AnalyzeOptionsContracts, hv, hbes, StatusOK, StatusInternalServerError]

theorem analyze_of_invalid64 (contracts : List OptionsContract)
    (h : ¬ ValidContracts contracts) :
    ∃ msg, AnalyzeOptionsContracts (some contracts) =
      some { status := 400, body := .error msg } := by
  obtain ⟨pre, c, rest, rfl, hpre, hc⟩ := exists_first_invalid contracts h
  have hv := validateContracts_first_invalid pre c rest hpre hc
  exact ⟨invalidMessage c, by simp only [AnalyzeOptionsContracts, hv, StatusBadRequest]⟩

theorem analyze_of_valid_finite64 (contracts : List OptionsContract)
    (h : ValidContracts contracts) (hfin : FiniteResult contracts) :
    ∃ bes, findBreakEvenPoints (calculateXYValues contracts) = some bes ∧
      AnalyzeOptionsContracts (some contracts) =
        some { status := 200,
               body := .analysis
                 { XYValues := calculateXYValues contracts,
                   MaxProfit := getMaxProfit (calculateXYValues contracts),
                   MaxLoss := getMaxLoss (calculateXYValues contracts),
                   BreakEvenPoints := bes } } := by
  obtain ⟨bes, hbes, hresp⟩ := analyze_of_valid64 contracts h
  refine ⟨bes, hbes, ?_⟩
  rw [hresp, if_pos ((jsonEncodable_iff contracts bes).mpr hfin)]

theorem analyze_of_valid_not_finite64 (contracts : List OptionsContract)
    (h : ValidContracts contracts) (hfin : ¬ FiniteResult contracts) :
    AnalyzeOptionsContracts (some contracts) =
      some { status := 500, body := .encoderError } := by
  obtain ⟨bes, _, hresp⟩ := analyze_of_valid64 contracts h
  rw [hresp, if_neg (fun he => hfin ((jsonEncodable_iff contracts bes).mp he))]

/-! ### Premium bounds and well-formed payoffs -/

theorem sub_fin_fin (a b : ℚ) : sub (fin a) (fin b) = roundTiesToEven (a - b) := rfl

theorem contractProfitLoss_wellFormed (c : OptionsContract) (price : ℚ) :
    WellFormed (contractProfitLoss c price) := by
  unfold contractProfitLoss calculateCallProfitLoss calculatePutProfitLoss
  split_ifs <;> first | exact sub_wellFormed _ _ | exact representable_zero

theorem totalProfitLoss_singleton (c : OptionsContract) (price : ℚ) :
    totalProfitLoss [c] price = contractProfitLoss c price := by
  unfold totalProfitLoss
  rw [List.foldl_cons, List.foldl_nil]
  exact zero_add_wellFormed _ (contractProfitLoss_wellFormed c price)

theorem totalProfitLoss_append_singleton (cs : List OptionsContract) (c : OptionsContract)
    (price : ℚ) :
    totalProfitLoss (cs ++ [c]) price =
      add (totalProfitLoss cs price) (totalProfitLoss [c] price) := by
  rw [totalProfitLoss_singleton]
  unfold totalProfitLoss
  rw [List.foldl_append, List.foldl_cons, List.foldl_nil]

theorem totalProfitLoss_pair_swap (a b : OptionsContract) (price : ℚ) :
    totalProfitLoss [a, b] price = totalProfitLoss [b, a] price := by
  have h1 := totalProfitLoss_append_singleton [a] b price
  have h2 := totalProfitLoss_append_singleton [b] a price
  rw [List.singleton_append] at h1 h2
  rw [h1, h2, add_swap]

theorem calculateXYValues_congr64 (cs ds : List OptionsContract)
    (h : ∀ price, totalProfitLoss cs price = totalProfitLoss ds price) :
    calculateXYValues cs = calculateXYValues ds := by
  rw [calculateXYValues_eq_curveSpec64, calculateXYValues_eq_curveSpec64]
  unfold curveSpec
  apply List.map_congr_left
  intro i _
  rw [h]

theorem finiteResult_of_all_finite (contracts : List OptionsContract)
    (h : ∀ p ∈ calculateXYValues contracts, isFinite p.Y = true) : FiniteResult contracts := by
  have hnan : ∀ p ∈ calculateXYValues contracts, p.Y ≠ nan :=
    fun p hp => isFinite_ne_nan _ (h p hp)
  obtain ⟨p, hp, hmax, _⟩ := getMaxProfit_attained64 _ (calculateXYValues_ne_nil64 contracts) hnan
  obtain ⟨q, hq, hmin, _⟩ := getMaxLoss_attained64 _ (calculateXYValues_ne_nil64 contracts) hnan
  exact ⟨h, by rw [hmax]; exact h p hp, by rw [hmin]; exact h q hq⟩

end Fp64

/-! ## Evaluation of the program over binary64 -/

namespace Fp64

open Binary64

theorem representable_nearest (q : ℚ) (h : |nearest q| < pow2 1024) :
    Representable (nearest q) :=
  ⟨nearest_onGrid q, h⟩

theorem curve_point64 (contracts : List OptionsContract) (i : Nat) (hi : i < 101) (x : ℚ)
    (y : Binary64) (hx : samplePrice i = x)
    (hy : same (totalProfitLoss contracts (samplePrice i)) y = true) :
    (calculateXYValues contracts)[i]? = some { X := x, Y := y } := by
  rw [calculateXYValues_getElem64 contracts i hi, hx, ← eq_of_same _ _ hy, hx]

set_option maxRecDepth 100000 in
set_option exponentiation.threshold 5000 in
theorem mixedParsed_at_87 :
    same (totalProfitLoss mixedParsed (samplePrice 37))
      (fin (-1058697756152955 / 35184372088832)) = true ∧
    (-1058697756152955 / 35184372088832 : ℚ) <
      (mixedParsed.map (fun c => OptionsAnalysis.payoffSpec c 87)).sum := by
  with_unfolding_all decide

set_option maxRecDepth 100000 in
set_option exponentiation.threshold 5000 in
theorem mixedParsed_at_110 :
    same ((mixedParsed.map (fun c => payoffSpec c (50 + ((60 : ℕ) : ℚ)))).foldl add (fin 0))
      (fin (1663517112359977 / 281474976710656)) = true := by
  with_unfolding_all decide

set_option maxRecDepth 100000 in
set_option exponentiation.threshold 5000 in
theorem mixedParsed_reverse_at_71 :
    lt (totalProfitLoss mixedParsed (samplePrice 21))
      (totalProfitLoss mixedParsed.reverse (samplePrice 21)) = true := by
  with_unfolding_all decide

set_option maxRecDepth 100000 in
set_option exponentiation.threshold 5000 in
theorem nearest_huge_negative :
    nearest (-1.7e308) < 0 ∧ pow2 1024 ≤ -(2 * nearest (-1.7e308)) ∧
    |nearest (-1.7e308)| < pow2 1024 := by
  with_unfolding_all decide

/-- At every price that is not negative the first contract of
`oppositeInfinities` pays positive infinity, the second negative infinity, and
their sum is NaN. -/
theorem oppositeInfinities_total (price : ℚ) (hp : 0 ≤ price) :
    totalProfitLoss oppositeInfinities price = nan := by
  obtain ⟨hneg, hbig, hbound⟩ := nearest_huge_negative
  have hrep : Representable (-nearest (-1.7e308)) :=
    representable_neg _ (representable_nearest _ hbound)
  have hd := le_round_of_le (-nearest (-1.7e308)) (price - nearest (-1.7e308)) hrep
    (by linarith)
  have hmax : mathMax (fin 0) (roundTiesToEven (price - nearest (-1.7e308))) = posInf ∨
      ∃ d : ℚ, -nearest (-1.7e308) ≤ d ∧
        mathMax (fin 0) (roundTiesToEven (price - nearest (-1.7e308))) = fin d := by
    cases h : roundTiesToEven (price - nearest (-1.7e308)) with
    | nan => rw [h] at hd; simp [le] at hd
    | negInf => rw [h] at hd; simp [le] at hd
    | posInf => exact Or.inl (by simp [mathMax])
    | fin d =>
      rw [h] at hd
      have hle : -nearest (-1.7e308) ≤ d := by simpa [le] using hd
      have hnot : ¬ d < 0 := by linarith
      exact Or.inr ⟨d, hle, by simp [mathMax, lt, hnot]⟩
  have h1 : calculateCallProfitLoss
      { Type_ := "Call", StrikePrice := nearest (-1.7e308), Bid := 0,
        Ask := nearest (-1.7e308), ExpirationDate := 0, LongShort := "long" } price = posInf := by
    simp only [calculateCallProfitLoss, if_true, sub_fin_fin]
    rcases hmax with h | ⟨d, hle, h⟩
    · rw [h]; rfl
    · rw [h, sub_fin_fin]
      exact round_eq_posInf _ (by linarith)
  have h2 : calculateCallProfitLoss
      { Type_ := "Call", StrikePrice := nearest (-1.7e308), Bid := nearest (-1.7e308),
        Ask := 0, ExpirationDate := 0, LongShort := "short" } price = negInf := by
    have hs : ¬ ("short" = "long") := by decide
    simp only [calculateCallProfitLoss, if_neg hs, sub_fin_fin]
    rcases hmax with h | ⟨d, hle, h⟩
    · rw [h]; rfl
    · rw [h, sub_fin_fin]
      exact round_eq_negInf _ (by linarith)
  have hp2 : ¬ ("Put" = "Call") := by decide
  simp only [totalProfitLoss, oppositeInfinities, List.foldl_cons, List.foldl_nil,
    contractProfitLoss, if_true, h1, h2]
  rfl

theorem getMaxProfit_of_all_nan (xy : List XYValue) (h : ∀ p ∈ xy, p.Y = nan) :
    getMaxProfit xy = negInf := by
  unfold getMaxProfit
  induction xy with
  | nil => rfl
  | cons x xs ih =>
    rw [List.foldl_cons, h x (List.mem_cons_self _ _)]
    exact ih (fun p hp => h p (List.mem_cons_of_mem _ hp))

theorem getMaxLoss_of_all_nan (xy : List XYValue) (h : ∀ p ∈ xy, p.Y = nan) :
    getMaxLoss xy = posInf := by
  unfold getMaxLoss
  induction xy with
  | nil => rfl
  | cons x xs ih =>
    rw [List.foldl_cons, h x (List.mem_cons_self _ _)]
    exact ih (fun p hp => h p (List.mem_cons_of_mem _ hp))

theorem samplePrice_nonneg (i : Nat) : 0 ≤ samplePrice i := by
  unfold samplePrice
  have : (0 : ℚ) ≤ (i : ℚ) := Nat.cast_nonneg i
  linarith

theorem oppositeInfinities_all_nan :
    ∀ p ∈ calculateXYValues oppositeInfinities, p.Y = nan := by
  intro p hp
  obtain ⟨i, _, rfl⟩ := mem_calculateXYValues64 _ p hp
  exact oppositeInfinities_total _ (samplePrice_nonneg i)

set_option maxRecDepth 100000 in
set_option exponentiation.threshold 5000 in
theorem hugeShortCalls_at_50 :
    same (totalProfitLoss hugeShortCalls (samplePrice 0)) posInf = true := by
  with_unfolding_all decide

set_option maxRecDepth 100000 in
set_option exponentiation.threshold 5000 in
theorem longCall100Parsed_curve :
    (curveSpec [longCall100Parsed]).all (fun p => isFinite p.Y) = true := by
  with_unfolding_all decide

theorem longCall100Parsed_finite :
    ∀ p ∈ calculateXYValues [longCall100Parsed], isFinite p.Y = true := by
  rw [calculateXYValues_eq_curveSpec64]
  exact List.all_eq_true.mp longCall100Parsed_curve

end Fp64

/-! ## Claims -/

/-- C1: for every list of contracts, valid or not, `calculateXYValues` returns
exactly 101 points; the i-th point (0-based) has x = 50 + i whatever the
contracts are, so the x values are 50, 51, ..., 150 in strictly ascending order. -/
theorem C1_curve_has_101_points_at_50_to_150 (contracts : List OptionsContract) :
    (calculateXYValues contracts).length = 101 ∧
    (∀ i : Nat, i < 101 →
      ((calculateXYValues contracts)[i]?).map XYValue.X = some (50 + (i : ℚ))) ∧
    (calculateXYValues contracts).map XYValue.X = (List.range 101).map (fun (i : Nat) => 50 + (i : ℚ)) ∧
    List.Pairwise (fun a b => a < b) ((calculateXYValues contracts).map XYValue.X) := by
  have hmap : (calculateXYValues contracts).map XYValue.X =
      (List.range 101).map (fun (i : Nat) => 50 + (i : ℚ)) := by
    rw [calculateXYValues_eq_curveSpec]
    simp [curveSpec, samplePrice, Function.comp_def]
  refine ⟨?_, ?_, hmap, ?_⟩
  · rw [calculateXYValues_eq_curveSpec, curveSpec_length]
  · intro i hi
    rw [calculateXYValues_eq_curveSpec, curveSpec_getElem? contracts i hi]
    simp [samplePrice]
  · rw [hmap, List.pairwise_map]
    apply List.Pairwise.imp _ (List.pairwise_lt_range 101)
    intro a b hab
    have : (a : ℚ) < b := by exact_mod_cast hab
    linarith

/-- C5: every list that fails validation splits as a valid prefix, a first
invalid contract and a rest; and for every such split the answer is 400 with the
message of that first invalid contract alone, "Invalid option type" when its
type is not "Call"/"Put" (whatever its position) and "Invalid position type"
otherwise, whatever the rest holds. -/
theorem C5_message_decided_by_first_invalid_contract :
    (∀ contracts : List OptionsContract, ¬ ValidContracts contracts →
      ∃ pre c rest, contracts = pre ++ c :: rest ∧ ValidContracts pre ∧ ¬ ValidContract c) ∧
    (∀ (pre : List OptionsContract) (c : OptionsContract) (rest : List OptionsContract),
      ValidContracts pre → ¬ ValidContract c →
      AnalyzeOptionsContracts (some (pre ++ c :: rest)) =
        some { status := 400,
               body := .error (if c.Type_ = "Call" ∨ c.Type_ = "Put"
                               then "Invalid position type" else "Invalid option type") }) :=
  ⟨exists_first_invalid, analyze_of_first_invalid⟩

/-- C5, witness: a Call with position "LONG" followed by a contract of type
"InvalidType" is answered "Invalid position type"; a first contract wrong in both
fields is answered "Invalid option type". -/
theorem C5_witness_first_invalid_wins :
    AnalyzeOptionsContracts
        (some [{ Type_ := "Call", StrikePrice := 100, Bid := 10.05, Ask := 12.04,
                 ExpirationDate := 0, LongShort := "LONG" },
               { Type_ := "InvalidType", StrikePrice := 100, Bid := 10.05, Ask := 12.04,
                 ExpirationDate := 0, LongShort := "long" }]) =
      some { status := 400, body := .error "Invalid position type" } ∧
    AnalyzeOptionsContracts
        (some [{ Type_ := "InvalidType", StrikePrice := 100, Bid := 10.05, Ask := 12.04,
                 ExpirationDate := 0, LongShort := "LONG" }]) =
      some { status := 400, body := .error "Invalid option type" } :=
  ⟨C5_message_decided_by_first_invalid_contract.2 [] _ _ (by decide) (by decide),
   C5_message_decided_by_first_invalid_contract.2 [] _ [] (by decide) (by decide)⟩

/-- C6: for the single long Call with strike 100, bid 10.05 and ask 12.04
(whatever its expiration), the curve's point at price 100 has y = -12.04, its
point at price 150 has y = 37.96, the maximum loss is -12.04 and the maximum
profit is 37.96. -/
theorem C6_long_call_100_values (expiration : Int) :
    (calculateXYValues [longCall100 expiration])[50]? = some { X := 100, Y := -12.04 } ∧
    (calculateXYValues [longCall100 expiration])[100]? = some { X := 150, Y := 37.96 } ∧
    getMaxLoss (calculateXYValues [longCall100 expiration]) = .fin (-12.04) ∧
    getMaxProfit (calculateXYValues [longCall100 expiration]) = .fin 37.96 := by
  rw [calculateXYValues_longCall100]
  exact curveSpec_longCall100_values

/-- C7: for the single long Put with strike 105, bid 16 and ask 18 (whatever its
expiration), the curve's point at price 50 has y = 37 and its point at price 150
has y = -18. -/
theorem C7_long_put_105_values (expiration : Int) :
    (calculateXYValues [longPut105 expiration])[0]? = some { X := 50, Y := 37 } ∧
    (calculateXYValues [longPut105 expiration])[100]? = some { X := 150, Y := -18 } := by
  rw [calculateXYValues_longPut105]
  exact curveSpec_longPut105_values

/-- C8: for every curve, `findBreakEvenPoints` returns exactly the list, in index
order, of the x of each point at an index i ≥ 1 with (y[i-1] ≤ 0 and y[i] ≥ 0) or
(y[i-1] ≥ 0 and y[i] ≤ 0); and on the curve of the single long Call with
strike 100 and ask 12.04 that list is [113]. -/
theorem C8_break_even_points_are_exactly_the_crossings :
    (∀ xy : List XYValue,
      findBreakEvenPoints xy =
        some (((List.range xy.length).filter
            (fun i => decide (1 ≤ i ∧
              (((pointAt xy (i - 1)).Y ≤ 0 ∧ (pointAt xy i).Y ≥ 0) ∨
               ((pointAt xy (i - 1)).Y ≥ 0 ∧ (pointAt xy i).Y ≤ 0))))).map
          (fun i => (pointAt xy i).X))) ∧
    (∀ (bid : ℚ) (expiration : Int),
      findBreakEvenPoints
          (calculateXYValues
            [{ Type_ := "Call", StrikePrice := 100, Bid := bid, Ask := 12.04,
               ExpirationDate := expiration, LongShort := "long" }]) = some [113]) := by
  constructor
  · intro xy
    exact findBreakEvenPoints_eq_spec xy
  · intro bid expiration
    have hcurve : calculateXYValues
        [{ Type_ := "Call", StrikePrice := 100, Bid := bid, Ask := 12.04,
           ExpirationDate := expiration, LongShort := "long" }] =
        curveSpec [longCall100 0] := by
      rw [← calculateXYValues_eq_curveSpec]
      exact calculateXYValues_congr _ _ (fun _ => rfl)
    rw [hcurve, findBreakEvenPoints_eq_spec, breakEvenSpec_longCall100]

/-- C9: for every contract list (in particular every valid one) the break-even
list is produced, each of its prices is a sampled price 50 + i with 1 ≤ i ≤ 100
whose point and the point before it cross or touch zero, and the list is empty
when every y of the curve is strictly positive or every y is strictly negative. -/
theorem C9_break_even_subset_of_samples (contracts : List OptionsContract) :
    ∃ bes, findBreakEvenPoints (calculateXYValues contracts) = some bes ∧
      (∀ x ∈ bes, ∃ (i : Nat) (prev curr : XYValue), 1 ≤ i ∧ i ≤ 100 ∧ x = 50 + (i : ℚ) ∧
          (calculateXYValues contracts)[i - 1]? = some prev ∧
          (calculateXYValues contracts)[i]? = some curr ∧
          curr.X = x ∧ CrossOrTouch prev.Y curr.Y) ∧
      (((∀ p ∈ calculateXYValues contracts, 0 < p.Y) ∨
        (∀ p ∈ calculateXYValues contracts, p.Y < 0)) → bes = []) := by
  refine ⟨_, findBreakEvenPoints_eq_spec _, ?_, breakEvenSpec_of_one_sign _⟩
  intro x hx
  obtain ⟨i, hi1, hilt, hxi, hc⟩ := mem_breakEvenSpec _ x hx
  have hlen : (calculateXYValues contracts).length = 101 := by
    rw [calculateXYValues_eq_curveSpec, curveSpec_length]
  rw [hlen] at hilt
  refine ⟨i, pointAt (calculateXYValues contracts) (i - 1),
    pointAt (calculateXYValues contracts) i, hi1, by omega, ?_,
    pointAt_of_lt _ _ (by omega), pointAt_of_lt _ _ (by omega), hxi.symm, hc⟩
  rw [hxi, calculateXYValues_eq_curveSpec, pointAt_curveSpec contracts i hilt]
  rfl

set_option maxRecDepth 100000 in
/-- C9, witness: a short Call with strike 200 and bid 5 earns 5 at every sampled
price, and its break-even list is empty. -/
theorem C9_witness_all_positive_curve :
    (∀ p ∈ calculateXYValues
        [{ Type_ := "Call", StrikePrice := 200, Bid := 5, Ask := 6,
           ExpirationDate := 0, LongShort := "short" }], 0 < p.Y) ∧
    findBreakEvenPoints (calculateXYValues
        [{ Type_ := "Call", StrikePrice := 200, Bid := 5, Ask := 6,
           ExpirationDate := 0, LongShort := "short" }]) = some [] := by
  have hpos : ∀ p ∈ calculateXYValues
      [{ Type_ := "Call", StrikePrice := 200, Bid := 5, Ask := 6,
         ExpirationDate := 0, LongShort := "short" }], 0 < p.Y := by
    rw [calculateXYValues_eq_curveSpec]
    with_unfolding_all decide
  obtain ⟨bes, hbes, _, hempty⟩ := C9_break_even_subset_of_samples
    [{ Type_ := "Call", StrikePrice := 200, Bid := 5, Ask := 6,
       ExpirationDate := 0, LongShort := "short" }]
  rw [hempty (Or.inl hpos)] at hbes
  exact ⟨hpos, hbes⟩

/-- C10: for the empty contract list the curve has 101 points, every one of them
with y = 0, and the maximum profit and the maximum loss are both 0. -/
theorem C10_empty_list_flat_curve :
    (calculateXYValues []).length = 101 ∧
    (∀ p ∈ calculateXYValues [], p.Y = 0) ∧
    getMaxProfit (calculateXYValues []) = .fin 0 ∧
    getMaxLoss (calculateXYValues []) = .fin 0 := by
  have hy : ∀ p ∈ calculateXYValues [], p.Y = 0 := by
    rw [calculateXYValues_eq_curveSpec]
    exact curveSpec_nil_y
  refine ⟨by rw [calculateXYValues_eq_curveSpec, curveSpec_length], hy, ?_, ?_⟩
  · obtain ⟨p, hp, hmax, _⟩ := getMaxProfit_attained _ (calculateXYValues_ne_nil [])
    rw [hmax, hy p hp]
  · obtain ⟨p, hp, hmin, _⟩ := getMaxLoss_attained _ (calculateXYValues_ne_nil [])
    rw [hmin, hy p hp]

/-- C11, as stated, fails: for the empty contract list the break-even list found
on the curve is not the empty list. -/
theorem C11_counterexample_empty_list_has_break_even_points :
    findBreakEvenPoints (calculateXYValues []) ≠ some [] := by
  rw [calculateXYValues_eq_curveSpec, findBreakEvenPoints_eq_spec, breakEvenSpec_curveSpec_nil]
  intro h
  have hlen := congrArg (fun o => (o.map List.length)) h
  simp at hlen

/-- C11, amended: for the empty contract list every y is 0, zero touches zero at
each consecutive pair, and the break-even list is the 100 prices 51, 52, ..., 150
in ascending order (every sampled price but the first). -/
theorem C11_empty_list_break_even_is_51_to_150 :
    findBreakEvenPoints (calculateXYValues []) =
      some ((List.range 100).map (fun (i : Nat) => 51 + (i : ℚ))) := by
  rw [calculateXYValues_eq_curveSpec, findBreakEvenPoints_eq_spec, breakEvenSpec_curveSpec_nil]

/-- C13: two contract lists of equal length that agree position by position on
type, strike, bid, ask and position, and so differ at most in their expiration
dates, have the same curve, the same maximum profit, the same maximum loss and
the same break-even list, and the handler gives the same answer to both. -/
theorem C13_expiration_date_is_unused (cs ds : List OptionsContract)
    (h : List.Forall₂ SameButExpiration cs ds) :
    calculateXYValues cs = calculateXYValues ds ∧
    getMaxProfit (calculateXYValues cs) = getMaxProfit (calculateXYValues ds) ∧
    getMaxLoss (calculateXYValues cs) = getMaxLoss (calculateXYValues ds) ∧
    findBreakEvenPoints (calculateXYValues cs) = findBreakEvenPoints (calculateXYValues ds) ∧
    AnalyzeOptionsContracts (some cs) = AnalyzeOptionsContracts (some ds) := by
  have hcurve : calculateXYValues cs = calculateXYValues ds :=
    calculateXYValues_congr cs ds (totalProfitLoss_sameButExpiration cs ds h)
  refine ⟨hcurve, by rw [hcurve], by rw [hcurve], by rw [hcurve], ?_⟩
  simp only [AnalyzeOptionsContracts, validateContracts_sameButExpiration cs ds h, hcurve]

/-- C13, witness: the contracts of `TestMultipleContracts` with expirations 0 and
5, and with expirations 7 and 9, are two valid lists with the same analysis. -/
theorem C13_witness_two_expirations :
    ValidContracts [longCall100 0, longPut105 5] ∧
    ValidContracts [longCall100 7, longPut105 9] ∧
    [longCall100 0, longPut105 5] ≠ [longCall100 7, longPut105 9] ∧
    AnalyzeOptionsContracts (some [longCall100 0, longPut105 5]) =
      AnalyzeOptionsContracts (some [longCall100 7, longPut105 9]) := by
  refine ⟨by decide, by decide, by with_unfolding_all decide, ?_⟩
  exact (C13_expiration_date_is_unused [longCall100 0, longPut105 5]
    [longCall100 7, longPut105 9]
    (List.Forall₂.cons ⟨rfl, rfl, rfl, rfl, rfl⟩
      (List.Forall₂.cons ⟨rfl, rfl, rfl, rfl, rfl⟩ List.Forall₂.nil))).2.2.2.2

/-- C14: break-even detection misses crossings between sampled points.  The valid
list of a short Call and a short Put, both with strike 100.5 and bid 0.1, pays
0.2 - |p - 100.5| at price p: that is 0 at 100.3 and at 100.7, two prices
strictly between the consecutive samples 100 and 101, and positive in between;
yet it is negative at every sampled price and the break-even list is empty. -/
theorem C14_crossings_between_samples_are_missed :
    (∃ contracts : List OptionsContract, ValidContracts contracts ∧
      findBreakEvenPoints (calculateXYValues contracts) = some [] ∧
      ∃ p : ℚ, 50 ≤ p ∧ p ≤ 150 ∧ (∀ i : Nat, p ≠ 50 + (i : ℚ)) ∧
        totalProfitLoss contracts p = 0) ∧
    ValidContracts shortStraddle ∧
    (∀ p : ℚ, totalProfitLoss shortStraddle p = 0.2 - |p - 100.5|) ∧
    totalProfitLoss shortStraddle 100.3 = 0 ∧
    totalProfitLoss shortStraddle 100.7 = 0 ∧
    0 < totalProfitLoss shortStraddle 100.5 ∧
    (∀ i : Nat, (100.3 : ℚ) ≠ 50 + (i : ℚ) ∧ (100.7 : ℚ) ≠ 50 + (i : ℚ)) ∧
    (∀ q ∈ calculateXYValues shortStraddle, q.Y < 0) ∧
    findBreakEvenPoints (calculateXYValues shortStraddle) = some [] := by
  have hvalid : ValidContracts shortStraddle := by decide
  have hneg : ∀ q ∈ calculateXYValues shortStraddle, q.Y < 0 := by
    rw [calculateXYValues_eq_curveSpec]
    exact curveSpec_shortStraddle_negative
  have hbes : findBreakEvenPoints (calculateXYValues shortStraddle) = some [] := by
    rw [findBreakEvenPoints_eq_spec, breakEvenSpec_of_one_sign _ (Or.inr hneg)]
  have h3 : totalProfitLoss shortStraddle 100.3 = 0 := by
    rw [totalProfitLoss_shortStraddle, abs_of_nonpos (by norm_num)]
    norm_num
  have h7 : totalProfitLoss shortStraddle 100.7 = 0 := by
    rw [totalProfitLoss_shortStraddle, abs_of_nonneg (by norm_num)]
    norm_num
  have h5 : 0 < totalProfitLoss shortStraddle 100.5 := by
    rw [totalProfitLoss_shortStraddle]
    norm_num
  have hns3 : ∀ i : Nat, (100.3 : ℚ) ≠ 50 + (i : ℚ) :=
    not_sampled_of_tenths 100.3 1003 (by norm_num) (by decide)
  have hns7 : ∀ i : Nat, (100.7 : ℚ) ≠ 50 + (i : ℚ) :=
    not_sampled_of_tenths 100.7 1007 (by norm_num) (by decide)
  exact ⟨⟨shortStraddle, hvalid, hbes, 100.3, by norm_num, by norm_num, hns3, h3⟩,
    hvalid, totalProfitLoss_shortStraddle, h3, h7, h5, fun i => ⟨hns3 i, hns7 i⟩, hneg, hbes⟩

/-- C18: for every single long Call the curve's y never decreases along the
curve, the maximum profit is the y at price 150 and the maximum loss the y at
price 50; for every single long Put the y never increases, the maximum profit is
the y at price 50 and the maximum loss the y at price 150. -/
theorem C18_single_long_contract_is_monotone (strike bid ask : ℚ) (expiration : Int) :
    (List.Pairwise (fun a b => a.Y ≤ b.Y)
        (calculateXYValues [longCallOf strike bid ask expiration]) ∧
      ({ X := 150, Y := max 0 (150 - strike) - ask } : XYValue) ∈
        calculateXYValues [longCallOf strike bid ask expiration] ∧
      ({ X := 50, Y := max 0 (50 - strike) - ask } : XYValue) ∈
        calculateXYValues [longCallOf strike bid ask expiration] ∧
      getMaxProfit (calculateXYValues [longCallOf strike bid ask expiration]) =
        .fin (max 0 (150 - strike) - ask) ∧
      getMaxLoss (calculateXYValues [longCallOf strike bid ask expiration]) =
        .fin (max 0 (50 - strike) - ask)) ∧
    (List.Pairwise (fun a b => b.Y ≤ a.Y)
        (calculateXYValues [longPutOf strike bid ask expiration]) ∧
      ({ X := 50, Y := max 0 (strike - 50) - ask } : XYValue) ∈
        calculateXYValues [longPutOf strike bid ask expiration] ∧
      ({ X := 150, Y := max 0 (strike - 150) - ask } : XYValue) ∈
        calculateXYValues [longPutOf strike bid ask expiration] ∧
      getMaxProfit (calculateXYValues [longPutOf strike bid ask expiration]) =
        .fin (max 0 (strike - 50) - ask) ∧
      getMaxLoss (calculateXYValues [longPutOf strike bid ask expiration]) =
        .fin (max 0 (strike - 150) - ask)) := by
  constructor
  · have hmono := totalProfitLoss_longCallOf_mono strike bid ask expiration
    have hext := extremes_of_nondecreasing _ hmono
    have h150 := point_150_mem [longCallOf strike bid ask expiration]
    have h50 := point_50_mem [longCallOf strike bid ask expiration]
    rw [totalProfitLoss_longCallOf] at hext h150 h50
    rw [totalProfitLoss_longCallOf] at hext
    refine ⟨?_, h150, h50, hext.1, hext.2⟩
    apply calculateXYValues_pairwise _ (fun a b => a ≤ b)
    intro i j hij
    exact hmono _ _ (samplePrice_le_samplePrice i j (le_of_lt hij))
  · have hanti := totalProfitLoss_longPutOf_anti strike bid ask expiration
    have hext := extremes_of_nonincreasing _ hanti
    have h150 := point_150_mem [longPutOf strike bid ask expiration]
    have h50 := point_50_mem [longPutOf strike bid ask expiration]
    rw [totalProfitLoss_longPutOf] at hext h150 h50
    rw [totalProfitLoss_longPutOf] at hext
    refine ⟨?_, h50, h150, hext.1, hext.2⟩
    apply calculateXYValues_pairwise _ (fun a b => b ≤ a)
    intro i j hij
    exact hanti _ _ (samplePrice_le_samplePrice i j (le_of_lt hij))

/-- C19: for every contract list the break-even list found on its curve is
strictly ascending, so no price appears twice; it never contains the first
sampled price 50; each of its prices is 50 + i with 1 ≤ i ≤ 100, hence between 51
and 150; and it has at most 100 entries. -/
theorem C19_break_even_list_shape (contracts : List OptionsContract) :
    ∃ bes, findBreakEvenPoints (calculateXYValues contracts) = some bes ∧
      List.Pairwise (fun a b => a < b) bes ∧
      bes.Nodup ∧
      50 ∉ bes ∧
      (∀ x ∈ bes, ∃ i : Nat, 1 ≤ i ∧ i ≤ 100 ∧ x = 50 + (i : ℚ)) ∧
      (∀ x ∈ bes, 51 ≤ x ∧ x ≤ 150) ∧
      bes.length ≤ 100 := by
  have hmem := mem_breakEvenSpec_curve contracts
  have hrange : ∀ x ∈ breakEvenSpec (calculateXYValues contracts), 51 ≤ x ∧ x ≤ 150 := by
    intro x hx
    obtain ⟨i, hi1, hi2, rfl⟩ := hmem x hx
    have h1 : (1 : ℚ) ≤ (i : ℚ) := by exact_mod_cast hi1
    have h2 : (i : ℚ) ≤ 100 := by exact_mod_cast hi2
    constructor <;> linarith
  have hsorted := breakEvenSpec_curve_pairwise contracts
  refine ⟨_, findBreakEvenPoints_eq_spec _, hsorted, ?_, ?_, hmem, hrange, ?_⟩
  · exact List.Pairwise.imp (fun {a b} hab => ne_of_lt hab) hsorted
  · intro h50
    have := (hrange 50 h50).1
    norm_num at this
  · have h := breakEvenSpec_length_le (calculateXYValues contracts)
    rw [calculateXYValues_length] at h
    exact h

/-- C20: on the empty curve `getMaxProfit` returns negative infinity,
`getMaxLoss` returns positive infinity and `findBreakEvenPoints` returns the
empty list; the curve of `calculateXYValues` is never that curve, since it always
has 101 points. -/
theorem C20_empty_curve_reductions :
    getMaxProfit [] = F64.negInf ∧
    getMaxLoss [] = F64.posInf ∧
    findBreakEvenPoints [] = some [] ∧
    (∀ contracts : List OptionsContract,
      (calculateXYValues contracts).length = 101 ∧ calculateXYValues contracts ≠ []) := by
  refine ⟨rfl, rfl, ?_, fun contracts =>
    ⟨calculateXYValues_length contracts, calculateXYValues_ne_nil contracts⟩⟩
  rw [findBreakEvenPoints_eq_spec]
  rfl

/-- C2, as stated, fails: on the valid contracts of `TestMixedOptionTypes` the
code's y at price 87 is the float64 -30.090000000000003, which is not the exact
sum of the four per-contract payoffs. -/
theorem C2_counterexample_exact_sum_differs :
    ValidContracts mixedParsed ∧
    (Fp64.calculateXYValues mixedParsed)[37]? =
      some { X := 87, Y := .fin (-1058697756152955 / 35184372088832) } ∧
    (-1058697756152955 / 35184372088832 : ℚ) ≠
      (mixedParsed.map (fun c => payoffSpec c 87)).sum := by
  refine ⟨by decide, ?_, ne_of_lt Fp64.mixedParsed_at_87.2⟩
  exact Fp64.curve_point64 mixedParsed 37 (by decide) 87 _ (by norm_num [samplePrice])
    Fp64.mixedParsed_at_87.1

/-- C2, amended: for every valid contract list and every sampled price
p = 50 + i (i ≤ 100), the curve has a point at p whose y is the float64 sum,
taken left to right from 0 with every addition rounded, of the per-contract
payoffs tabulated by kind and position and computed in float64. -/
theorem C2_curve_y_is_float64_sum_of_payoffs (contracts : List OptionsContract)
    (hvalid : ValidContracts contracts) (i : Nat) (hi : i ≤ 100) :
    (Fp64.calculateXYValues contracts)[i]? =
      some { X := 50 + (i : ℚ),
             Y := (contracts.map (fun c => Fp64.payoffSpec c (50 + (i : ℚ)))).foldl
                    Binary64.add (.fin 0) } := by
  rw [Fp64.calculateXYValues_getElem64 contracts i (by omega),
    Fp64.totalProfitLoss_eq_foldl_payoffSpec contracts _ hvalid]
  rfl

/-- C2, witness: the four contracts of `TestMixedOptionTypes` are valid, and at
price 110 the code's y is the float64 printed as 5.91. -/
theorem C2_witness_mixed_contracts_at_110 :
    ValidContracts mixedParsed ∧
    (Fp64.calculateXYValues mixedParsed)[60]? =
      some { X := 50 + ((60 : ℕ) : ℚ),
             Y := .fin (1663517112359977 / 281474976710656) } := by
  refine ⟨by decide, ?_⟩
  rw [C2_curve_y_is_float64_sum_of_payoffs mixedParsed (by decide) 60 (by decide),
    Binary64.eq_of_same _ _ Fp64.mixedParsed_at_110]

/-- C3, as stated, fails: for the valid list of a long and a short call whose
strike and premium are -1.7e308, every y of the curve is NaN, `getMaxProfit`
returns negative infinity and `getMaxLoss` positive infinity, and neither is the
y of a curve point. -/
theorem C3_counterexample_nan_curve :
    ValidContracts oppositeInfinities ∧
    (∀ c ∈ oppositeInfinities, Fp64.DecodedContract c) ∧
    (∀ p ∈ Fp64.calculateXYValues oppositeInfinities, p.Y = Binary64.nan) ∧
    Fp64.getMaxProfit (Fp64.calculateXYValues oppositeInfinities) = Binary64.negInf ∧
    Fp64.getMaxLoss (Fp64.calculateXYValues oppositeInfinities) = Binary64.posInf ∧
    ¬ (∃ p ∈ Fp64.calculateXYValues oppositeInfinities,
        Fp64.getMaxProfit (Fp64.calculateXYValues oppositeInfinities) = p.Y) ∧
    ¬ (∃ p ∈ Fp64.calculateXYValues oppositeInfinities,
        Fp64.getMaxLoss (Fp64.calculateXYValues oppositeInfinities) = p.Y) := by
  have hnan := Fp64.oppositeInfinities_all_nan
  have hmax := Fp64.getMaxProfit_of_all_nan _ hnan
  have hmin := Fp64.getMaxLoss_of_all_nan _ hnan
  have hrep : Binary64.Representable (Binary64.nearest (-1.7e308)) :=
    Fp64.representable_nearest _ Fp64.nearest_huge_negative.2.2
  refine ⟨by decide, ?_, hnan, hmax, hmin, ?_, ?_⟩
  · intro c hc
    simp only [oppositeInfinities, List.mem_cons, List.mem_singleton, List.not_mem_nil,
      or_false] at hc
    rcases hc with rfl | rfl
    · exact ⟨hrep, Binary64.representable_zero, hrep⟩
    · exact ⟨hrep, hrep, Binary64.representable_zero⟩
  · rintro ⟨p, hp, h⟩
    rw [hmax, hnan p hp] at h
    cases h
  · rintro ⟨p, hp, h⟩
    rw [hmin, hnan p hp] at h
    cases h

/-- C3, amended: for every contract list whose curve has no NaN y (NaN arises
only when payoffs overflow to infinities of both signs), `getMaxProfit` of the
curve is the y of some curve point and is ≥ every y of the curve, and
`getMaxLoss` is the y of some curve point and is ≤ every y of the curve. -/
theorem C3_max_and_min_attained_when_no_nan (contracts : List OptionsContract)
    (hnan : ∀ p ∈ Fp64.calculateXYValues contracts, p.Y ≠ Binary64.nan) :
    (∃ p ∈ Fp64.calculateXYValues contracts,
        Fp64.getMaxProfit (Fp64.calculateXYValues contracts) = p.Y ∧
        ∀ q ∈ Fp64.calculateXYValues contracts, Binary64.le q.Y p.Y = true) ∧
    (∃ p ∈ Fp64.calculateXYValues contracts,
        Fp64.getMaxLoss (Fp64.calculateXYValues contracts) = p.Y ∧
        ∀ q ∈ Fp64.calculateXYValues contracts, Binary64.le p.Y q.Y = true) :=
  ⟨Fp64.getMaxProfit_attained64 _ (Fp64.calculateXYValues_ne_nil64 contracts) hnan,
   Fp64.getMaxLoss_attained64 _ (Fp64.calculateXYValues_ne_nil64 contracts) hnan⟩

/-- C3, witness: the curve of the long call of `TestAnalysisEndpoint` has no NaN,
and its maximum and minimum are attained bounds. -/
theorem C3_witness_long_call_100 :
    (∀ p ∈ Fp64.calculateXYValues [longCall100Parsed], p.Y ≠ Binary64.nan) ∧
    (∃ p ∈ Fp64.calculateXYValues [longCall100Parsed],
        Fp64.getMaxProfit (Fp64.calculateXYValues [longCall100Parsed]) = p.Y ∧
        ∀ q ∈ Fp64.calculateXYValues [longCall100Parsed], Binary64.le q.Y p.Y = true) ∧
    (∃ p ∈ Fp64.calculateXYValues [longCall100Parsed],
        Fp64.getMaxLoss (Fp64.calculateXYValues [longCall100Parsed]) = p.Y ∧
        ∀ q ∈ Fp64.calculateXYValues [longCall100Parsed], Binary64.le p.Y q.Y = true) := by
  have hnan : ∀ p ∈ Fp64.calculateXYValues [longCall100Parsed], p.Y ≠ Binary64.nan :=
    fun p hp => Binary64.isFinite_ne_nan _ (Fp64.longCall100Parsed_finite p hp)
  exact ⟨hnan, (C3_max_and_min_attained_when_no_nan [longCall100Parsed] hnan).1,
    (C3_max_and_min_attained_when_no_nan [longCall100Parsed] hnan).2⟩

/-- C4, as stated, fails: two valid short calls, each sold for 1.7e308, sum to
positive infinity at every price; the JSON encoder rejects the result and the
answer is 500, not 200, although every contract is valid. -/
theorem C4_counterexample_valid_list_answered_500 :
    ValidContracts hugeShortCalls ∧
    (Fp64.calculateXYValues hugeShortCalls)[0]? =
      some { X := 50, Y := Binary64.posInf } ∧
    Fp64.AnalyzeOptionsContracts (some hugeShortCalls) =
      some { status := 500, body := .encoderError } ∧
    ¬ (∃ r, Fp64.AnalyzeOptionsContracts (some hugeShortCalls) =
        some { status := 200, body := .analysis r }) := by
  have hpt : (Fp64.calculateXYValues hugeShortCalls)[0]? =
      some { X := 50, Y := Binary64.posInf } :=
    Fp64.curve_point64 hugeShortCalls 0 (by decide) 50 _ (by norm_num [samplePrice])
      Fp64.hugeShortCalls_at_50
  have hnot : ¬ Fp64.FiniteResult hugeShortCalls := by
    intro hfin
    have := hfin.1 _ (List.getElem?_mem hpt)
    simp [Binary64.isFinite] at this
  have h500 := Fp64.analyze_of_valid_not_finite64 hugeShortCalls (by decide) hnot
  refine ⟨by decide, hpt, h500, ?_⟩
  rintro ⟨r, hr⟩
  rw [h500] at hr
  simp at hr

/-- C4, amended: the analysis of a parsed contract list answers 200 with the
curve, its maximum, its minimum and the break-even list exactly when every
contract has type "Call" or "Put" and position "long" or "short" (exact string
match) and every number of the result is a finite float64.  When a contract is
invalid the answer is 400 with an error message only, even if other contracts
are valid; when all are valid but a result overflowed to an infinity or is NaN,
the JSON encoder fails and the answer is 500 with no analysis fields. -/
theorem C4_success_iff_valid_and_finite (contracts : List OptionsContract) :
    ((∃ r, Fp64.AnalyzeOptionsContracts (some contracts) =
        some { status := 200, body := .analysis r }) ↔
      (ValidContracts contracts ∧ Fp64.FiniteResult contracts)) ∧
    (ValidContracts contracts → Fp64.FiniteResult contracts →
      ∃ bes, Fp64.findBreakEvenPoints (Fp64.calculateXYValues contracts) = some bes ∧
        Fp64.AnalyzeOptionsContracts (some contracts) =
          some { status := 200,
                 body := .analysis
                   { XYValues := Fp64.calculateXYValues contracts,
                     MaxProfit := Fp64.getMaxProfit (Fp64.calculateXYValues contracts),
                     MaxLoss := Fp64.getMaxLoss (Fp64.calculateXYValues contracts),
                     BreakEvenPoints := bes } }) ∧
    (ValidContracts contracts → ¬ Fp64.FiniteResult contracts →
      Fp64.AnalyzeOptionsContracts (some contracts) =
        some { status := 500, body := .encoderError }) ∧
    (¬ ValidContracts contracts →
      ∃ msg, Fp64.AnalyzeOptionsContracts (some contracts) =
        some { status := 400, body := .error msg }) := by
  refine ⟨⟨?_, ?_⟩, Fp64.analyze_of_valid_finite64 contracts,
    Fp64.analyze_of_valid_not_finite64 contracts, Fp64.analyze_of_invalid64 contracts⟩
  · rintro ⟨r, hr⟩
    by_cases hv : ValidContracts contracts
    · by_cases hfin : Fp64.FiniteResult contracts
      · exact ⟨hv, hfin⟩
      · rw [Fp64.analyze_of_valid_not_finite64 contracts hv hfin] at hr
        simp at hr
    · obtain ⟨msg, hmsg⟩ := Fp64.analyze_of_invalid64 contracts hv
      rw [hmsg] at hr
      simp at hr
  · rintro ⟨hv, hfin⟩
    obtain ⟨bes, _, hresp⟩ := Fp64.analyze_of_valid_finite64 contracts hv hfin
    exact ⟨_, hresp⟩

/-- C4, witness: the long call of `TestAnalysisEndpoint` is analysed with status
200; a list whose type is spelled "call", and a list whose position is spelled
"Long", are answered 400 with an error body although their other contract is
valid. -/
theorem C4_witness_case_sensitive_rejection :
    (∃ r, Fp64.AnalyzeOptionsContracts (some [longCall100Parsed]) =
      some { status := 200, body := .analysis r }) ∧
    (∃ msg, Fp64.AnalyzeOptionsContracts
        (some [longCall100Parsed,
               { Type_ := "call", StrikePrice := 100, Bid := 10, Ask := 12,
                 ExpirationDate := 0, LongShort := "long" }]) =
      some { status := 400, body := .error msg }) ∧
    (∃ msg, Fp64.AnalyzeOptionsContracts
        (some [{ Type_ := "Call", StrikePrice := 100, Bid := 10, Ask := 12,
                 ExpirationDate := 0, LongShort := "Long" },
               longCall100Parsed]) =
      some { status := 400, body := .error msg }) := by
  have hfin : Fp64.FiniteResult [longCall100Parsed] :=
    Fp64.finiteResult_of_all_finite _ Fp64.longCall100Parsed_finite
  exact ⟨(C4_success_iff_valid_and_finite _).1.mpr ⟨by decide, hfin⟩,
    (C4_success_iff_valid_and_finite _).2.2.2 (by decide),
    (C4_success_iff_valid_and_finite _).2.2.2 (by decide)⟩

/-- C12: for every valid contract list the computation produces its results: the
price scan runs its body 101 times and returns 101 points, the break-even scan
returns a list, and the handler does not panic (it answers 200, or 500 when the
encoder rejects a result that is not finite); the break-even scan reads no index
out of range on any curve, and returns the empty list on the curves of length 0
and 1.  `getMaxProfit` and `getMaxLoss` are folds over the curve and have no
failure path by construction; their result need not be finite. -/
theorem C12_computation_is_total (contracts : List OptionsContract)
    (hvalid : ValidContracts contracts) :
    priceLoopIterations 50 = 101 ∧
    (Fp64.calculateXYValues contracts).length = 101 ∧
    (∃ bes, Fp64.findBreakEvenPoints (Fp64.calculateXYValues contracts) = some bes) ∧
    (∃ resp, Fp64.AnalyzeOptionsContracts (some contracts) = some resp ∧
      (resp.status = 200 ∨ resp.status = 500)) ∧
    (∀ xy : List Fp64.XYValue, ∃ bes, Fp64.findBreakEvenPoints xy = some bes) ∧
    Fp64.findBreakEvenPoints [] = some [] ∧
    (∀ p : Fp64.XYValue, Fp64.findBreakEvenPoints [p] = some []) := by
  refine ⟨priceLoopIterations_50, Fp64.calculateXYValues_length64 contracts,
    Fp64.findBreakEvenPoints_total64 _, ?_, Fp64.findBreakEvenPoints_total64,
    Fp64.findBreakEvenPoints_nil64, Fp64.findBreakEvenPoints_singleton64⟩
  by_cases hfin : Fp64.FiniteResult contracts
  · obtain ⟨bes, _, hresp⟩ := Fp64.analyze_of_valid_finite64 contracts hvalid hfin
    exact ⟨_, hresp, Or.inl rfl⟩
  · exact ⟨_, Fp64.analyze_of_valid_not_finite64 contracts hvalid hfin, Or.inr rfl⟩

/-- C12, witness: on the four valid contracts of `TestMixedOptionTypes` the scan
returns 101 points and the handler answers. -/
theorem C12_witness_mixed_contracts_total :
    ValidContracts mixedParsed ∧
    (Fp64.calculateXYValues mixedParsed).length = 101 ∧
    (∃ resp, Fp64.AnalyzeOptionsContracts (some mixedParsed) = some resp ∧
      (resp.status = 200 ∨ resp.status = 500)) :=
  ⟨by decide,
   (C12_computation_is_total mixedParsed (by decide)).2.1,
   (C12_computation_is_total mixedParsed (by decide)).2.2.2.1⟩

/-- C16, as stated, fails on the code: the contracts of `TestMixedOptionTypes`
taken in reverse order are a permutation of the same valid list, yet the code's
curve differs (at price 71 the float64 sums differ in the last place). -/
theorem C16_counterexample_reversed_list_differs :
    ValidContracts mixedParsed ∧
    mixedParsed.reverse.Perm mixedParsed ∧
    Binary64.lt (Fp64.totalProfitLoss mixedParsed 71)
      (Fp64.totalProfitLoss mixedParsed.reverse 71) = true ∧
    Fp64.calculateXYValues mixedParsed.reverse ≠ Fp64.calculateXYValues mixedParsed := by
  have h71 : samplePrice 21 = 71 := by norm_num [samplePrice]
  have hlt := Fp64.mixedParsed_reverse_at_71
  rw [h71] at hlt
  refine ⟨by decide, List.reverse_perm _, hlt, ?_⟩
  intro heq
  have h1 := Fp64.calculateXYValues_getElem64 mixedParsed 21 (by decide)
  have h2 := Fp64.calculateXYValues_getElem64 mixedParsed.reverse 21 (by decide)
  rw [heq, h1, h71] at h2
  have h3 := congrArg Fp64.XYValue.Y (Option.some.inj h2)
  exact Binary64.ne_of_lt64 _ _ hlt h3

/-- C16, amended: in float64 the total is additive when one contract is appended,
so at every price the y of A ++ [b] is the rounded sum of the y of A and the y of
[b]; and a list of two contracts has the same curve, maximum profit, maximum loss
and break-even list in either order.  (Longer lists are summed left to right with
rounding, and their result depends on the order.) -/
theorem C16_additive_by_one_and_pair_order_independent :
    (∀ (A : List OptionsContract) (b : OptionsContract) (price : ℚ),
      Fp64.totalProfitLoss (A ++ [b]) price =
        Binary64.add (Fp64.totalProfitLoss A price) (Fp64.totalProfitLoss [b] price)) ∧
    (∀ a b : OptionsContract,
      Fp64.calculateXYValues [a, b] = Fp64.calculateXYValues [b, a] ∧
      Fp64.getMaxProfit (Fp64.calculateXYValues [a, b]) =
        Fp64.getMaxProfit (Fp64.calculateXYValues [b, a]) ∧
      Fp64.getMaxLoss (Fp64.calculateXYValues [a, b]) =
        Fp64.getMaxLoss (Fp64.calculateXYValues [b, a]) ∧
      Fp64.findBreakEvenPoints (Fp64.calculateXYValues [a, b]) =
        Fp64.findBreakEvenPoints (Fp64.calculateXYValues [b, a])) := by
  refine ⟨Fp64.totalProfitLoss_append_singleton, ?_⟩
  intro a b
  have hcurve : Fp64.calculateXYValues [a, b] = Fp64.calculateXYValues [b, a] :=
    Fp64.calculateXYValues_congr64 _ _ (Fp64.totalProfitLoss_pair_swap a b)
  exact ⟨hcurve, by rw [hcurve], by rw [hcurve], by rw [hcurve]⟩

end OptionsAnalysis
